import Mathlib

/-!
Shallow embedding of the in-memory link-graph store of the WebCrawler
repository (`crawler/linkgraph/store/memory/base.go` together with the
entity and error declarations of `linkgraph/graph`).

Modelling conventions:
* Go maps (`map[K]V`) become association lists `List (K × V)`; lookup of a
  missing key yields `none` (the caller sees Go's zero value), `aset`
  models `m[k] = v` and `aerase` models `delete(m, k)`.  Go's map
  iteration order is unspecified, so the association-list order is one
  admissible order and every statement about a range scan's result is a
  statement about it as a set.
* Go pointers (`*graph.Link`, `*graph.Edge`) become addresses (`Nat`) into
  explicit heaps `linkHeap`/`edgeHeap`; the `links` and `linkURLIndex`
  maps hold addresses of shared cells exactly as the Go maps hold shared
  pointers, and in-place mutation through a pointer becomes `List.set` on
  the heap.
* `uuid.UUID` values are natural numbers below `2 ^ 128`; `uuid.String()`
  is rendered as the list of ASCII byte values of the canonical
  8-4-4-4-12 lowercase-hex form, and Go's built-in string comparison is
  byte-wise lexicographic comparison of those lists.
* `time.Now().Unix()` and the identifiers produced by `uuid.New()` are
  external inputs, so each mutating operation takes them as parameters;
  the collision-retry loop of the source is reflected by the freshness
  side condition `validOp` (the loop exits exactly when the candidate key
  is absent from the corresponding primary map).
-/

set_option linter.unusedVariables false

namespace WebCrawler

/-! ### Association lists for Go maps -/

def alookup {K V : Type} [DecidableEq K] : List (K × V) → K → Option V
  | [], _ => none
  | p :: ps, k => if p.1 = k then some p.2 else alookup ps k

def aset {K V : Type} [DecidableEq K] : List (K × V) → K → V → List (K × V)
  | [], k, v => [(k, v)]
  | p :: ps, k, v => if p.1 = k then (k, v) :: ps else p :: aset ps k v

def aerase {K V : Type} [DecidableEq K] : List (K × V) → K → List (K × V)
  | [], _ => []
  | p :: ps, k => if p.1 = k then ps else p :: aerase ps k

@[simp] theorem alookup_nil {K V : Type} [DecidableEq K] (k : K) :
    alookup ([] : List (K × V)) k = none := rfl

@[simp] theorem alookup_cons {K V : Type} [DecidableEq K] (p : K × V)
    (ps : List (K × V)) (k : K) :
    alookup (p :: ps) k = if p.1 = k then some p.2 else alookup ps k := rfl

theorem alookup_aset {K V : Type} [DecidableEq K] (m : List (K × V)) (k : K)
    (v : V) (k' : K) :
    alookup (aset m k v) k' = if k = k' then some v else alookup m k' := by
  induction m with
  | nil => by_cases h : k = k' <;> simp [aset, h]
  | cons p ps ih =>
      by_cases hp : p.1 = k
      · subst hp
        by_cases h : p.1 = k' <;> simp [aset, h]
      · by_cases h : p.1 = k'
        · subst h
          have hk : ¬ k = p.1 := fun hh => hp hh.symm
          simp [aset, hp, hk]
        · simp [aset, hp, h, ih]

theorem keys_aset {K V : Type} [DecidableEq K] (m : List (K × V)) (k : K)
    (v : V) :
    (aset m k v).map Prod.fst =
      if (alookup m k).isNone then m.map Prod.fst ++ [k]
      else (m.map Prod.fst) := by
  induction m with
  | nil => simp [aset]
  | cons p ps ih =>
      by_cases hp : p.1 = k
      · simp [aset, hp]
      · have ha : aset (p :: ps) k v = p :: aset ps k v := by simp [aset, hp]
        rw [ha, List.map_cons, ih, alookup_cons, if_neg hp]
        by_cases h : (alookup ps k).isNone <;> simp [h]

theorem alookup_eq_none_of_not_mem_keys {K V : Type} [DecidableEq K]
    {m : List (K × V)} {k : K} (h : k ∉ m.map Prod.fst) :
    alookup m k = none := by
  induction m with
  | nil => rfl
  | cons p ps ih =>
      simp only [List.map_cons, List.mem_cons, not_or] at h
      rw [alookup_cons, if_neg (fun hh : p.1 = k => h.1 hh.symm)]
      exact ih h.2

theorem mem_keys_of_alookup {K V : Type} [DecidableEq K]
    {m : List (K × V)} {k : K} {v : V} (h : alookup m k = some v) :
    k ∈ m.map Prod.fst := by
  induction m with
  | nil => simp [alookup] at h
  | cons p ps ih =>
      by_cases hp : p.1 = k
      · simp [hp]
      · simp [hp] at h
        simp [ih h]

theorem alookup_isSome_of_mem_keys {K V : Type} [DecidableEq K]
    {m : List (K × V)} {k : K} (h : k ∈ m.map Prod.fst) :
    (alookup m k).isSome := by
  induction m with
  | nil => simp at h
  | cons p ps ih =>
      by_cases hp : p.1 = k
      · simp [hp]
      · simp only [List.map_cons, List.mem_cons] at h
        rcases h with h | h
        · exact absurd h.symm hp
        · simp [hp, ih h]

theorem keys_nodup_aset {K V : Type} [DecidableEq K] {m : List (K × V)}
    (k : K) (v : V) (h : (m.map Prod.fst).Nodup) :
    ((aset m k v).map Prod.fst).Nodup := by
  rw [keys_aset]
  by_cases hk : (alookup m k).isNone
  · simp only [hk, if_pos]
    rw [List.nodup_append]
    refine ⟨h, List.nodup_singleton _, ?_⟩
    intro a ha hak
    simp at hak
    subst hak
    have := alookup_isSome_of_mem_keys ha
    simp [Option.isNone_iff_eq_none.mp hk] at this
  · simp [hk, h]

theorem alookup_aerase {K V : Type} [DecidableEq K] {m : List (K × V)}
    (hm : (m.map Prod.fst).Nodup) (k k' : K) :
    alookup (aerase m k) k' = if k = k' then none else alookup m k' := by
  induction m with
  | nil => simp [aerase]
  | cons p ps ih =>
      rw [List.map_cons, List.nodup_cons] at hm
      by_cases hp : p.1 = k
      · subst hp
        by_cases h : p.1 = k'
        · subst h
          simp [aerase]
          exact alookup_eq_none_of_not_mem_keys hm.1
        · simp [aerase, h]
      · by_cases h : p.1 = k'
        · subst h
          have : ¬ k = p.1 := fun hh => hp hh.symm
          simp [aerase, hp, this]
        · simp [aerase, hp, h, ih hm.2]

theorem keys_aerase_sublist {K V : Type} [DecidableEq K] (m : List (K × V))
    (k : K) :
    ((aerase m k).map Prod.fst).Sublist (m.map Prod.fst) := by
  induction m with
  | nil => simp [aerase]
  | cons p ps ih =>
      by_cases hp : p.1 = k
      · simp only [aerase, if_pos hp]
        exact (List.map Prod.fst ps).sublist_cons_self p.1
      · simp only [aerase, if_neg hp, List.map_cons]
        exact ih.cons₂ p.1

theorem keys_nodup_aerase {K V : Type} [DecidableEq K] {m : List (K × V)}
    (k : K) (h : (m.map Prod.fst).Nodup) :
    ((aerase m k).map Prod.fst).Nodup :=
  (keys_aerase_sublist m k).nodup h

theorem aset_aset_self {K V : Type} [DecidableEq K] (m : List (K × V))
    (k : K) (v : V) :
    aset (aset m k v) k v = aset m k v := by
  induction m with
  | nil => simp [aset]
  | cons p ps ih =>
      by_cases hp : p.1 = k
      · simp [aset, hp]
      · simp [aset, hp, ih]

/-! ### The canonical textual form of `uuid.UUID`

`uuid.String()` renders the 128-bit value as the lowercase-hex groups
`xxxxxxxx-xxxx-xxxx-xxxx-xxxxxxxxxxxx`.  Go strings are byte sequences and
Go's `<` / `>=` on strings is byte-wise lexicographic comparison, so the
canonical form is modelled as the list of ASCII byte values and the
comparison as lexicographic comparison of those lists. -/

def hexDigitByte (n : Nat) : Nat :=
  if n < 10 then 48 + n else 87 + n

def padHexB : Nat → Nat → List Nat
  | 0, _ => []
  | w + 1, n => hexDigitByte (n / 16 ^ w) :: padHexB w (n % 16 ^ w)

/-- The ASCII bytes of `uuid.String()` for the identifier `n < 2 ^ 128`:
five zero-padded hex groups of 8, 4, 4, 4 and 12 digits joined by `'-'`
(byte 45). -/
def uuidBytes (n : Nat) : List Nat :=
  padHexB 8 (n / 2 ^ 96 % 2 ^ 32) ++
    45 :: (padHexB 4 (n / 2 ^ 80 % 2 ^ 16) ++
      45 :: (padHexB 4 (n / 2 ^ 64 % 2 ^ 16) ++
        45 :: (padHexB 4 (n / 2 ^ 48 % 2 ^ 16) ++
          45 :: padHexB 12 (n % 2 ^ 48))))

/-- Go's `a < b` on strings (byte-wise lexicographic). -/
def bytesLt : List Nat → List Nat → Bool
  | [], [] => false
  | [], _ :: _ => true
  | _ :: _, [] => false
  | a :: as, b :: bs => decide (a < b) || (a = b && bytesLt as bs)

/-- Go's `a <= b` on strings, so that `id >= from` is `bytesLe from id`. -/
def bytesLe : List Nat → List Nat → Bool
  | [], _ => true
  | _ :: _, [] => false
  | a :: as, b :: bs => decide (a < b) || (a = b && bytesLe as bs)

theorem hexDigitByte_lt_iff {a b : Nat} (ha : a < 16) (hb : b < 16) :
    (hexDigitByte a < hexDigitByte b) ↔ a < b := by
  unfold hexDigitByte
  by_cases h1 : a < 10 <;> by_cases h2 : b < 10 <;> simp [h1, h2] <;> omega

theorem hexDigitByte_inj {a b : Nat} (ha : a < 16) (hb : b < 16)
    (h : hexDigitByte a = hexDigitByte b) : a = b := by
  unfold hexDigitByte at h
  by_cases h1 : a < 10 <;> by_cases h2 : b < 10 <;> simp [h1, h2] at h <;> omega

/-- Comparing a number by its leading base-`k` digit and remainder. -/
theorem lt_iff_div_mod {k a b : Nat} :
    a < b ↔ (a / k < b / k ∨ (a / k = b / k ∧ a % k < b % k)) := by
  constructor
  · intro h
    rcases Nat.lt_or_ge (a / k) (b / k) with h1 | h1
    · exact Or.inl h1
    · have h4 : a / k = b / k :=
        le_antisymm (Nat.div_le_div_right (Nat.le_of_lt h)) h1
      refine Or.inr ⟨h4, ?_⟩
      have ha := Nat.div_add_mod a k
      have hb := Nat.div_add_mod b k
      rw [h4] at ha
      omega
  · rintro (h | ⟨h1, h2⟩)
    · exact Nat.lt_of_div_lt_div h
    · have ha := Nat.div_add_mod a k
      have hb := Nat.div_add_mod b k
      rw [h1] at ha
      omega

theorem padHexB_lt_iff : ∀ (w : Nat) {a b : Nat}, a < 16 ^ w → b < 16 ^ w →
    (bytesLt (padHexB w a) (padHexB w b) = true ↔ a < b) := by
  intro w
  induction w with
  | zero => intro a b ha hb; simp [padHexB, bytesLt]; omega
  | succ w ih =>
      intro a b ha hb
      have hpos : 0 < 16 ^ w := Nat.pos_pow_of_pos w (by norm_num)
      have hda : a / 16 ^ w < 16 := by
        rw [pow_succ] at ha; exact Nat.div_lt_of_lt_mul (by omega)
      have hdb : b / 16 ^ w < 16 := by
        rw [pow_succ] at hb; exact Nat.div_lt_of_lt_mul (by omega)
      simp only [padHexB, bytesLt, Bool.or_eq_true, decide_eq_true_eq,
        Bool.and_eq_true, decide_eq_true_eq]
      rw [hexDigitByte_lt_iff hda hdb,
        ih (Nat.mod_lt _ hpos) (Nat.mod_lt _ hpos),
        @lt_iff_div_mod (16 ^ w) a b]
      constructor
      · rintro (h | ⟨h1, h2⟩)
        · exact Or.inl h
        · exact Or.inr ⟨hexDigitByte_inj hda hdb h1, h2⟩
      · rintro (h | ⟨h1, h2⟩)
        · exact Or.inl h
        · exact Or.inr ⟨congrArg hexDigitByte h1, h2⟩

theorem padHexB_inj : ∀ (w : Nat) {a b : Nat}, a < 16 ^ w → b < 16 ^ w →
    padHexB w a = padHexB w b → a = b := by
  intro w
  induction w with
  | zero => intro a b ha hb _; omega
  | succ w ih =>
      intro a b ha hb h
      have hpos : 0 < 16 ^ w := Nat.pos_pow_of_pos w (by norm_num)
      simp only [padHexB, List.cons.injEq] at h
      have hda : a / 16 ^ w < 16 := by
        rw [pow_succ] at ha; exact Nat.div_lt_of_lt_mul (by omega)
      have hdb : b / 16 ^ w < 16 := by
        rw [pow_succ] at hb; exact Nat.div_lt_of_lt_mul (by omega)
      have h1 := hexDigitByte_inj hda hdb h.1
      have h2 := ih (Nat.mod_lt _ hpos) (Nat.mod_lt _ hpos) h.2
      calc a = 16 ^ w * (a / 16 ^ w) + a % 16 ^ w := (Nat.div_add_mod a _).symm
        _ = 16 ^ w * (b / 16 ^ w) + b % 16 ^ w := by rw [h1, h2]
        _ = b := Nat.div_add_mod b _

theorem padHexB_length : ∀ (w n : Nat), (padHexB w n).length = w := by
  intro w
  induction w with
  | zero => intro n; rfl
  | succ w ih => intro n; simp [padHexB, ih]

theorem bytesLt_irrefl (l : List Nat) : bytesLt l l = false := by
  induction l with
  | nil => rfl
  | cons a as ih => simp [bytesLt, ih]

theorem bytesLt_append {l1 l2 r1 r2 : List Nat} (h : l1.length = l2.length) :
    bytesLt (l1 ++ r1) (l2 ++ r2) =
      (bytesLt l1 l2 || (l1 = l2 && bytesLt r1 r2)) := by
  induction l1 generalizing l2 with
  | nil =>
      cases l2 with
      | nil => simp [bytesLt]
      | cons b bs => simp at h
  | cons a as ih =>
      cases l2 with
      | nil => simp at h
      | cons b bs =>
          simp only [List.length_cons, Nat.succ.injEq] at h
          by_cases hab : a = b
          · subst hab
            by_cases he : as = bs
            · subst he
              simp [bytesLt, ih h, bytesLt_irrefl]
            · simp [bytesLt, ih h, he]
          · simp [bytesLt, hab]

theorem bytesLt_group {w : Nat} {x y : Nat} {r1 r2 : List Nat}
    (hx : x < 16 ^ w) (hy : y < 16 ^ w) :
    (bytesLt (padHexB w x ++ 45 :: r1) (padHexB w y ++ 45 :: r2) = true) ↔
      (x < y ∨ (x = y ∧ bytesLt r1 r2 = true)) := by
  rw [bytesLt_append (by simp [padHexB_length])]
  simp only [Bool.or_eq_true, Bool.and_eq_true, decide_eq_true_eq]
  rw [padHexB_lt_iff w hx hy]
  constructor
  · rintro (h | ⟨h1, h2⟩)
    · exact Or.inl h
    · refine Or.inr ⟨padHexB_inj w hx hy h1, ?_⟩
      simpa [bytesLt] using h2
  · rintro (h | ⟨h1, h2⟩)
    · exact Or.inl h
    · exact Or.inr ⟨by rw [h1], by simp [bytesLt, h2]⟩

theorem uuidBytes_lt_iff {a b : Nat} (ha : a < 2 ^ 128) (hb : b < 2 ^ 128) :
    (bytesLt (uuidBytes a) (uuidBytes b) = true) ↔ a < b := by
  have h96 : ∀ n : Nat, n < 2 ^ 128 → n / 2 ^ 96 % 2 ^ 32 = n / 2 ^ 96 := by
    intro n hn
    exact Nat.mod_eq_of_lt (Nat.div_lt_of_lt_mul (by norm_num at hn ⊢; omega))
  have hc1 : ∀ n : Nat, n < 2 ^ 128 → n / 2 ^ 96 < 16 ^ 8 := by
    intro n hn
    exact Nat.div_lt_of_lt_mul (by norm_num at hn ⊢; omega)
  have hc16 : ∀ (n s : Nat), n / 2 ^ s % 2 ^ 16 < 16 ^ 4 := by
    intro n s
    have := @Nat.mod_lt (n / 2 ^ s) (2 ^ 16) (by norm_num)
    norm_num at this ⊢
    omega
  have hc5 : ∀ n : Nat, n % 2 ^ 48 < 16 ^ 12 := by
    intro n
    have := @Nat.mod_lt n (2 ^ 48) (by norm_num)
    norm_num at this ⊢
    omega
  unfold uuidBytes
  rw [h96 a ha, h96 b hb]
  rw [bytesLt_group (hc1 a ha) (hc1 b hb),
    bytesLt_group (hc16 a 80) (hc16 b 80),
    bytesLt_group (hc16 a 64) (hc16 b 64),
    bytesLt_group (hc16 a 48) (hc16 b 48),
    padHexB_lt_iff 12 (hc5 a) (hc5 b)]
  rw [@lt_iff_div_mod (2 ^ 96) a b]
  have e96 : ∀ n : Nat, n % 2 ^ 96 / 2 ^ 80 = n / 2 ^ 80 % 2 ^ 16 := by
    intro n
    have : (2 : Nat) ^ 96 = 2 ^ 80 * 2 ^ 16 := by norm_num
    rw [this, Nat.mod_mul_right_div_self]
  have e80 : ∀ n : Nat, n % 2 ^ 96 % 2 ^ 80 = n % 2 ^ 80 := by
    intro n
    exact Nat.mod_mod_of_dvd n (by norm_num)
  have e80' : ∀ n : Nat, n % 2 ^ 80 / 2 ^ 64 = n / 2 ^ 64 % 2 ^ 16 := by
    intro n
    have : (2 : Nat) ^ 80 = 2 ^ 64 * 2 ^ 16 := by norm_num
    rw [this, Nat.mod_mul_right_div_self]
  have e64 : ∀ n : Nat, n % 2 ^ 80 % 2 ^ 64 = n % 2 ^ 64 := by
    intro n
    exact Nat.mod_mod_of_dvd n (by norm_num)
  have e64' : ∀ n : Nat, n % 2 ^ 64 / 2 ^ 48 = n / 2 ^ 48 % 2 ^ 16 := by
    intro n
    have : (2 : Nat) ^ 64 = 2 ^ 48 * 2 ^ 16 := by norm_num
    rw [this, Nat.mod_mul_right_div_self]
  have e48 : ∀ n : Nat, n % 2 ^ 64 % 2 ^ 48 = n % 2 ^ 48 := by
    intro n
    exact Nat.mod_mod_of_dvd n (by norm_num)
  rw [@lt_iff_div_mod (2 ^ 80) (a % 2 ^ 96) (b % 2 ^ 96),
    e96 a, e96 b, e80 a, e80 b]
  rw [@lt_iff_div_mod (2 ^ 64) (a % 2 ^ 80) (b % 2 ^ 80),
    e80' a, e80' b, e64 a, e64 b]
  rw [@lt_iff_div_mod (2 ^ 48) (a % 2 ^ 64) (b % 2 ^ 64),
    e64' a, e64' b, e48 a, e48 b]

theorem uuidBytes_inj {a b : Nat} (ha : a < 2 ^ 128) (hb : b < 2 ^ 128)
    (h : uuidBytes a = uuidBytes b) : a = b := by
  by_contra hne
  rcases Nat.lt_or_ge a b with hab | hab
  · have := (uuidBytes_lt_iff ha hb).mpr hab
    rw [h, bytesLt_irrefl] at this
    exact Bool.false_ne_true this
  · rcases Nat.lt_or_ge b a with hba | hba
    · have := (uuidBytes_lt_iff hb ha).mpr hba
      rw [h, bytesLt_irrefl] at this
      exact Bool.false_ne_true this
    · exact hne (le_antisymm hba hab)

theorem bytesLe_eq_not_bytesLt :
    ∀ (l1 l2 : List Nat), l1.length = l2.length →
      bytesLe l1 l2 = ! bytesLt l2 l1 := by
  intro l1
  induction l1 with
  | nil => intro l2 h; cases l2 with
      | nil => rfl
      | cons b bs => simp at h
  | cons a as ih =>
      intro l2 h
      cases l2 with
      | nil => simp at h
      | cons b bs =>
          simp only [List.length_cons, Nat.succ.injEq] at h
          simp only [bytesLe, bytesLt, ih bs h]
          by_cases hab : a = b
          · subst hab
            simp
          · have hba : ¬ b = a := fun hh => hab hh.symm
            by_cases h2 : a < b
            · simp [hab, hba, h2, Nat.lt_asymm h2]
            · have h3 : b < a := by omega
              simp [hab, hba, h2, h3]

theorem uuidBytes_le_iff {a b : Nat} (ha : a < 2 ^ 128) (hb : b < 2 ^ 128) :
    (bytesLe (uuidBytes a) (uuidBytes b) = true) ↔ a ≤ b := by
  have hlen : ∀ n : Nat, (uuidBytes n).length = 36 := by
    intro n
    simp [uuidBytes, padHexB_length]
  rw [bytesLe_eq_not_bytesLt _ _ (by rw [hlen, hlen])]
  rcases Nat.lt_or_ge b a with h | h
  · simp [(uuidBytes_lt_iff hb ha).mpr h]
    omega
  · have : ¬ (bytesLt (uuidBytes b) (uuidBytes a) = true) := by
      rw [uuidBytes_lt_iff hb ha]
      omega
    simp [Bool.not_eq_true] at this
    simp [this]
    omega

/-! ### Entities (`linkgraph/graph/dto.go`) and errors (`linkgraph/graph/error.go`) -/

/-- `graph.Link`: `{ID uuid.UUID; URL string; RetrievedAt int64}`. -/
structure Link where
  ID : Nat
  URL : String
  RetrievedAt : Int
deriving DecidableEq, Repr, Inhabited

/-- `graph.Edge`: `{ID uuid.UUID; Src uuid.UUID; Dst uuid.UUID; UpdatedAt int64}`. -/
structure Edge where
  ID : Nat
  Src : Nat
  Dst : Nat
  UpdatedAt : Int
deriving DecidableEq, Repr, Inhabited

/-- The two error sentinels declared in `linkgraph/graph/error.go`
(`errors.New` values, compared by identity via `errors.Is`). -/
inductive Sentinel where
  | ErrNotFound
  | ErrUnknownEdgeLinks
deriving DecidableEq, Repr

/-- An error value produced with `fmt.Errorf("...: %w", sentinel)`: a context
string wrapping a sentinel.  `errors.Is(e, s)` unwraps down to the sentinel,
so identity testing inspects `wrapped`. -/
structure GraphError where
  context : String
  wrapped : Sentinel
deriving DecidableEq, Repr

/-- `errors.Is(e, s)` for an error built by wrapping a sentinel once. -/
def errorsIs (e : GraphError) (s : Sentinel) : Bool :=
  e.wrapped = s

/-! ### The in-memory engine (`crawler/linkgraph/store/memory/base.go`)

`linkHeap`/`edgeHeap` model the Go heap: each `*graph.Link` (resp.
`*graph.Edge`) is an address into the heap, and the maps store addresses
exactly as the Go maps store pointers.  The `sync.RWMutex` field has no
observable sequential content and is omitted; every operation below is the
body of one lock-protected critical section. -/

structure InMemoryGraph where
  linkHeap : List Link
  edgeHeap : List Edge
  links : List (Nat × Nat)
  edges : List (Nat × Nat)
  linkURLIndex : List (String × Nat)
  linkEdgeMap : List (Nat × List Nat)
deriving DecidableEq, Repr

/-- Dereference a `*graph.Link`.  A dangling address would be a nil-pointer
panic in Go; the reachable-state invariant proves every dereference the
engine performs hits a live cell, so the `default` fallback is never used. -/
def getLink (s : InMemoryGraph) (addr : Nat) : Link :=
  s.linkHeap.getD addr default

/-- Dereference a `*graph.Edge`. -/
def getEdge (s : InMemoryGraph) (addr : Nat) : Edge :=
  s.edgeHeap.getD addr default

/-- `NewInMemoryGraph` creates a new in-memory link graph. -/
def NewInMemoryGraph : InMemoryGraph :=
  { linkHeap := [], edgeHeap := [], links := [], edges := [],
    linkURLIndex := [], linkEdgeMap := [] }

/-- `UpsertLink` creates a new link or updates an existing link.

`newID` is the identifier at which the `uuid.New()` collision-retry loop
stops; the loop's exit condition `s.links[link.ID] == nil` is the
`validOp` side condition.  The returned `Link` is the caller's record after
the call (Go mutates it through the pointer); the returned error is always
`none` (the Go function ends in `return nil` on every path). -/
def UpsertLink (s : InMemoryGraph) (link : Link) (newID : Nat) :
    InMemoryGraph × Link × Option GraphError :=
  match alookup s.linkURLIndex link.URL with
  | some addr =>
      -- existing := s.linkURLIndex[link.URL]; link.ID = existing.ID
      let existing := getLink s addr
      let link := { link with ID := existing.ID }
      -- origTs := existing.RetrievedAt; *existing = *link;
      -- if origTs > existing.RetrievedAt { existing.RetrievedAt = origTs }
      let cell := if existing.RetrievedAt > link.RetrievedAt then
        { link with RetrievedAt := existing.RetrievedAt } else link
      ({ s with linkHeap := s.linkHeap.set addr cell }, link, none)
  | none =>
      -- link.ID = uuid.New() until s.links[link.ID] == nil
      let link := { link with ID := newID }
      -- lCopy := new(graph.Link); *lCopy = *link  (a fresh cell)
      let addr := s.linkHeap.length
      ({ s with
          linkHeap := s.linkHeap ++ [link],
          linkURLIndex := aset s.linkURLIndex link.URL addr,
          links := aset s.links link.ID addr }, link, none)

/-- `FindLink` looks up a link by its ID; it returns a fresh copy of the
stored record or wraps `ErrNotFound`. -/
def FindLink (s : InMemoryGraph) (id : Nat) : Except GraphError Link :=
  match alookup s.links id with
  | none => .error ⟨"find link", .ErrNotFound⟩
  | some addr => .ok (getLink s addr)

/-- `Links` returns the snapshot list that the returned `linkIterator`
consumes: the addresses (Go: `*graph.Link` pointers, appended without
copying) of the links whose `ID.String()` lies in `[fromID, toID)` by Go
string comparison and whose `RetrievedAt` is before the given timestamp.
The accompanying error result of the Go function is always `nil`. -/
def Links (s : InMemoryGraph) (fromID toID : Nat) (retrievedBefore : Int) :
    List Nat × Option GraphError :=
  let frm := uuidBytes fromID
  let toB := uuidBytes toID
  ((s.links.filter fun p =>
      bytesLe frm (uuidBytes p.1) && bytesLt (uuidBytes p.1) toB &&
        decide ((getLink s p.2).RetrievedAt < retrievedBefore)).map Prod.snd,
    none)

/-- Modelled from the spec: the body of `linkIterator.Link()` is not part of
the sources at hand (only the iterator's construction in `Links` is), and
§4.3 specifies that `current()` returns a copy of the item at the cursor.
The item at the cursor is the shared cell the snapshot list points at, so
the record the caller sees is its value at read time. -/
def iterLink (s : InMemoryGraph) (snapshot : List Nat) : List Link :=
  snapshot.map (getLink s)

/-- `UpsertEdge`'s scan of the source link's edge list: the first edge ID in
the list whose record matches `Src`/`Dst`.  The unguarded `s.edges[edgeID]`
dereference of the Go code skips nothing in reachable states (every listed
ID is a key of `edges`); a missing key, which would be a nil-pointer panic
in Go, yields no match here. -/
def scanEdgeList (s : InMemoryGraph) (lst : List Nat) (src dst : Nat) :
    Option Nat :=
  lst.findSome? fun edgeID =>
    match alookup s.edges edgeID with
    | some eaddr =>
        if (getEdge s eaddr).Src = src ∧ (getEdge s eaddr).Dst = dst then
          some eaddr
        else none
    | none => none

/-- `UpsertEdge` creates a new edge or updates an existing edge.

`newID` is where the collision-retry loop stops (side condition in
`validOp`) and `now` is `time.Now().Unix()`.  The returned `Edge` is the
caller's record after the call. -/
def UpsertEdge (s : InMemoryGraph) (edge : Edge) (newID : Nat) (now : Int) :
    InMemoryGraph × Except GraphError Edge :=
  if (alookup s.links edge.Src).isNone ∨ (alookup s.links edge.Dst).isNone then
    (s, .error ⟨"upsert edge", .ErrUnknownEdgeLinks⟩)
  else
    match scanEdgeList s (alookup s.linkEdgeMap edge.Src |>.getD []) edge.Src edge.Dst with
    | some eaddr =>
        -- existingEdge.UpdatedAt = time.Now().Unix(); *edge = *existingEdge
        let cell := { getEdge s eaddr with UpdatedAt := now }
        ({ s with edgeHeap := s.edgeHeap.set eaddr cell }, .ok cell)
    | none =>
        -- edge.ID = uuid.New() until s.edges[edge.ID] == nil;
        -- edge.UpdatedAt = time.Now().Unix(); eCopy := *edge
        let cell := { edge with ID := newID, UpdatedAt := now }
        let eaddr := s.edgeHeap.length
        ({ s with
            edgeHeap := s.edgeHeap ++ [cell],
            edges := aset s.edges cell.ID eaddr,
            linkEdgeMap := aset s.linkEdgeMap edge.Src
              ((alookup s.linkEdgeMap edge.Src |>.getD []) ++ [cell.ID]) },
          .ok cell)

/-- `Edges` returns the snapshot list its `edgeIterator` consumes: walking
every link ID in `[fromID, toID)` (string comparison of the canonical
forms) and that link's adjacency list, it collects the addresses of the
edges updated before the given timestamp.  The error result is always
`nil`. -/
def Edges (s : InMemoryGraph) (fromID toID : Nat) (updatedBefore : Int) :
    List Nat × Option GraphError :=
  let frm := uuidBytes fromID
  let toB := uuidBytes toID
  ((s.links.filter fun p =>
      bytesLe frm (uuidBytes p.1) && bytesLt (uuidBytes p.1) toB).flatMap
        fun p =>
          (alookup s.linkEdgeMap p.1 |>.getD []).filterMap fun edgeID =>
            match alookup s.edges edgeID with
            | some eaddr =>
                if (getEdge s eaddr).UpdatedAt < updatedBefore then some eaddr
                else none
            | none => none,
    none)

/-- Modelled from the spec: `edgeIterator.Edge()` is not in the sources at
hand; §4.3's `current()` returns a copy of the shared cell the snapshot
points at, read at call time. -/
def iterEdge (s : InMemoryGraph) (snapshot : List Nat) : List Edge :=
  snapshot.map (getEdge s)

/-- `RemoveStaleEdges` removes every edge originating from `fromID` that was
updated before `updatedBefore`.  The fold carries the `edges` map (entries
are deleted while the adjacency list is walked) and the kept list
`newEdgeList`; the final map and list replace the originals.  The Go
function always returns `nil`. -/
def RemoveStaleEdges (s : InMemoryGraph) (fromID : Nat)
    (updatedBefore : Int) : InMemoryGraph × Option GraphError :=
  let step := fun (acc : List (Nat × Nat) × List Nat) (edgeID : Nat) =>
    match alookup acc.1 edgeID with
    | some eaddr =>
        if (getEdge s eaddr).UpdatedAt < updatedBefore then
          (aerase acc.1 edgeID, acc.2)
        else
          (acc.1, acc.2 ++ [edgeID])
    | none => acc
  let r := (alookup s.linkEdgeMap fromID |>.getD []).foldl step (s.edges, [])
  ({ s with edges := r.1, linkEdgeMap := aset s.linkEdgeMap fromID r.2 },
    none)

/-- The adjacency list of `src` as the engine reads it:
`s.linkEdgeMap[src]` is the stored list, or `nil` for a missing key. -/
def adj (s : InMemoryGraph) (src : Nat) : List Nat :=
  (alookup s.linkEdgeMap src).getD []

/-! ### Call sequences and reachable states -/

/-- One public mutating call together with its external inputs (`uuid.New()`
outcomes and `time.Now().Unix()`).  The read-only calls (`FindLink`,
`Links`, `Edges`) do not change the state. -/
inductive Op where
  | upsertLink (link : Link) (newID : Nat)
  | upsertEdge (edge : Edge) (newID : Nat) (now : Int)
  | removeStaleEdges (fromID : Nat) (updatedBefore : Int)
deriving DecidableEq, Repr

def applyOp (s : InMemoryGraph) : Op → InMemoryGraph
  | .upsertLink l n => (UpsertLink s l n).1
  | .upsertEdge e n t => (UpsertEdge s e n t).1
  | .removeStaleEdges f t => (RemoveStaleEdges s f t).1

/-- What the environment guarantees about an op's external inputs:
`uuid.New()` yields a 128-bit value and the collision-retry loop stops
exactly on a key that is absent from the corresponding primary map.  The
freshness condition is only imposed on the branches that reach the
generation loop. -/
def validOp (s : InMemoryGraph) : Op → Prop
  | .upsertLink l n =>
      (alookup s.linkURLIndex l.URL).isSome ∨
        (n < 2 ^ 128 ∧ alookup s.links n = none)
  | .upsertEdge e n _ =>
      (alookup s.links e.Src).isNone ∨ (alookup s.links e.Dst).isNone ∨
        (scanEdgeList s (adj s e.Src) e.Src e.Dst).isSome ∨
        (n < 2 ^ 128 ∧ alookup s.edges n = none)
  | .removeStaleEdges _ _ => True

instance validOp.dec (s : InMemoryGraph) (op : Op) : Decidable (validOp s op) := by
  cases op with
  | upsertLink l n => unfold validOp; exact inferInstance
  | upsertEdge e n t => unfold validOp; exact inferInstance
  | removeStaleEdges f t => unfold validOp; exact inferInstance

def runOps (s : InMemoryGraph) : List Op → InMemoryGraph
  | [] => s
  | op :: ops => runOps (applyOp s op) ops

def ValidOps : InMemoryGraph → List Op → Prop
  | _, [] => True
  | s, op :: ops => validOp s op ∧ ValidOps (applyOp s op) ops

instance ValidOps.dec : (s : InMemoryGraph) → (ops : List Op) →
    Decidable (ValidOps s ops)
  | _, [] => .isTrue trivial
  | s, op :: ops =>
      have : Decidable (ValidOps (applyOp s op) ops) :=
        ValidOps.dec (applyOp s op) ops
      by unfold ValidOps; exact inferInstance

/-- A state the engine can be in: produced from `NewInMemoryGraph` by a
sequence of public calls with well-behaved external inputs. -/
def Reachable (s : InMemoryGraph) : Prop :=
  ∃ ops, ValidOps NewInMemoryGraph ops ∧ runOps NewInMemoryGraph ops = s

/-! ### The engine invariant -/

/-- Mutual consistency of the four indices and the heap.  `getLink`/
`getEdge` dereference shared cells, so the conjuncts about them say that
every stored pointer is live and agrees with the key it is filed under. -/
structure Inv (s : InMemoryGraph) : Prop where
  linksKeysNodup : (s.links.map Prod.fst).Nodup
  urlKeysNodup : (s.linkURLIndex.map Prod.fst).Nodup
  edgesKeysNodup : (s.edges.map Prod.fst).Nodup
  linksWF : ∀ k a, alookup s.links k = some a →
    a < s.linkHeap.length ∧ (getLink s a).ID = k ∧ k < 2 ^ 128
  urlWF : ∀ u a, alookup s.linkURLIndex u = some a →
    a < s.linkHeap.length ∧ (getLink s a).URL = u ∧
      alookup s.links (getLink s a).ID = some a
  linksURL : ∀ k a, alookup s.links k = some a →
    alookup s.linkURLIndex (getLink s a).URL = some a
  edgesWF : ∀ k a, alookup s.edges k = some a →
    a < s.edgeHeap.length ∧ (getEdge s a).ID = k ∧ k < 2 ^ 128
  edgesEnds : ∀ k a, alookup s.edges k = some a →
    (alookup s.links (getEdge s a).Src).isSome ∧
      (alookup s.links (getEdge s a).Dst).isSome
  adjWF : ∀ src, (adj s src).Nodup ∧
    ∀ eid ∈ adj s src, ∃ a, alookup s.edges eid = some a ∧
      (getEdge s a).Src = src
  adjComplete : ∀ k a, alookup s.edges k = some a →
    k ∈ adj s (getEdge s a).Src
  pairUnique : ∀ k1 a1 k2 a2, alookup s.edges k1 = some a1 →
    alookup s.edges k2 = some a2 →
    (getEdge s a1).Src = (getEdge s a2).Src →
    (getEdge s a1).Dst = (getEdge s a2).Dst → k1 = k2

theorem Inv_new : Inv NewInMemoryGraph := by
  constructor <;> simp [NewInMemoryGraph, adj, alookup, getLink, getEdge]

/-! ### Heap access lemmas -/

theorem getD_set_self {α : Type} [Inhabited α] {l : List α} {i : Nat}
    (x : α) (h : i < l.length) : (l.set i x).getD i default = x := by
  simp [List.getD_eq_getElem?_getD, List.getElem?_set_self, h]

theorem getD_set_ne {α : Type} [Inhabited α] {l : List α} {i j : Nat}
    (x : α) (h : i ≠ j) : (l.set i x).getD j default = l.getD j default := by
  simp [List.getD_eq_getElem?_getD, List.getElem?_set_ne h]

theorem getD_append_lt {α : Type} [Inhabited α] {l : List α} {i : Nat}
    (x : α) (h : i < l.length) : (l ++ [x]).getD i default = l.getD i default := by
  rw [List.getD_append _ _ _ _ h]

theorem getD_append_len {α : Type} [Inhabited α] (l : List α) (x : α) :
    (l ++ [x]).getD l.length default = x := by
  simp [List.getD_eq_getElem?_getD, List.getElem?_append_right (le_refl _)]

/-- Overwriting one link cell in place while keeping its `ID` and `URL`
(the update branch of `UpsertLink`) preserves the invariant. -/
theorem Inv_setLink {s : InMemoryGraph} {addr : Nat} {cell : Link}
    (hInv : Inv s) (hlen : addr < s.linkHeap.length)
    (hid : cell.ID = (getLink s addr).ID)
    (hurl : cell.URL = (getLink s addr).URL) :
    Inv { s with linkHeap := s.linkHeap.set addr cell } := by
  set t := { s with linkHeap := s.linkHeap.set addr cell } with ht
  have hget : ∀ a, getLink t a = if a = addr then cell else getLink s a := by
    intro a
    by_cases h : a = addr
    · subst h
      simp only [if_pos rfl]
      exact getD_set_self cell hlen
    · simp only [if_neg h]
      exact getD_set_ne cell (fun hh => h hh.symm)
  have hid' : ∀ a, (getLink t a).ID = (getLink s a).ID := by
    intro a
    rw [hget]
    by_cases h : a = addr
    · subst h; simp [hid]
    · simp [h]
  have hurl' : ∀ a, (getLink t a).URL = (getLink s a).URL := by
    intro a
    rw [hget]
    by_cases h : a = addr
    · subst h; simp [hurl]
    · simp [h]
  have hlen' : t.linkHeap.length = s.linkHeap.length := by
    simp [ht]
  refine ⟨hInv.linksKeysNodup, hInv.urlKeysNodup, hInv.edgesKeysNodup,
    ?_, ?_, ?_, hInv.edgesWF, hInv.edgesEnds, hInv.adjWF, hInv.adjComplete,
    hInv.pairUnique⟩
  · intro k a hk
    obtain ⟨h1, h2, h3⟩ := hInv.linksWF k a hk
    exact ⟨hlen' ▸ h1, (hid' a).trans h2, h3⟩
  · intro u a hu
    obtain ⟨h1, h2, h3⟩ := hInv.urlWF u a hu
    exact ⟨hlen' ▸ h1, (hurl' a).trans h2, (hid' a).symm ▸ h3⟩
  · intro k a hk
    rw [hurl' a]
    exact hInv.linksURL k a hk

/-- Overwriting one edge cell in place while keeping its `ID`, `Src` and
`Dst` (the refresh branch of `UpsertEdge`) preserves the invariant. -/
theorem Inv_setEdge {s : InMemoryGraph} {addr : Nat} {cell : Edge}
    (hInv : Inv s) (hlen : addr < s.edgeHeap.length)
    (hid : cell.ID = (getEdge s addr).ID)
    (hsrc : cell.Src = (getEdge s addr).Src)
    (hdst : cell.Dst = (getEdge s addr).Dst) :
    Inv { s with edgeHeap := s.edgeHeap.set addr cell } := by
  set t := { s with edgeHeap := s.edgeHeap.set addr cell } with ht
  have hget : ∀ a, getEdge t a = if a = addr then cell else getEdge s a := by
    intro a
    by_cases h : a = addr
    · subst h
      simp only [if_pos rfl]
      exact getD_set_self cell hlen
    · simp only [if_neg h]
      exact getD_set_ne cell (fun hh => h hh.symm)
  have hid' : ∀ a, (getEdge t a).ID = (getEdge s a).ID := by
    intro a
    rw [hget]
    by_cases h : a = addr
    · subst h; simp [hid]
    · simp [h]
  have hsrc' : ∀ a, (getEdge t a).Src = (getEdge s a).Src := by
    intro a
    rw [hget]
    by_cases h : a = addr
    · subst h; simp [hsrc]
    · simp [h]
  have hdst' : ∀ a, (getEdge t a).Dst = (getEdge s a).Dst := by
    intro a
    rw [hget]
    by_cases h : a = addr
    · subst h; simp [hdst]
    · simp [h]
  have hlen' : t.edgeHeap.length = s.edgeHeap.length := by
    simp [ht]
  refine ⟨hInv.linksKeysNodup, hInv.urlKeysNodup, hInv.edgesKeysNodup,
    hInv.linksWF, hInv.urlWF, hInv.linksURL, ?_, ?_, ?_, ?_, ?_⟩
  · intro k a hk
    obtain ⟨h1, h2, h3⟩ := hInv.edgesWF k a hk
    exact ⟨hlen' ▸ h1, (hid' a).trans h2, h3⟩
  · intro k a hk
    obtain ⟨h1, h2⟩ := hInv.edgesEnds k a hk
    exact ⟨(hsrc' a).symm ▸ h1, (hdst' a).symm ▸ h2⟩
  · intro src
    obtain ⟨h1, h2⟩ := hInv.adjWF src
    refine ⟨h1, fun eid he => ?_⟩
    obtain ⟨a, ha1, ha2⟩ := h2 eid he
    exact ⟨a, ha1, (hsrc' a).trans ha2⟩
  · intro k a hk
    rw [hsrc' a]
    exact hInv.adjComplete k a hk
  · intro k1 a1 k2 a2 h1 h2 h3 h4
    rw [hsrc' a1, hsrc' a2] at h3
    rw [hdst' a1, hdst' a2] at h4
    exact hInv.pairUnique k1 a1 k2 a2 h1 h2 h3 h4

/-! ### `UpsertLink`: branch equations and invariant preservation -/

theorem UpsertLink_eq_found {s : InMemoryGraph} {l : Link} {n addr : Nat}
    (h : alookup s.linkURLIndex l.URL = some addr) :
    UpsertLink s l n =
      ({ s with
          linkHeap := s.linkHeap.set addr
            (if (getLink s addr).RetrievedAt > l.RetrievedAt then
              { l with
                  ID := (getLink s addr).ID
                  RetrievedAt := (getLink s addr).RetrievedAt }
            else { l with ID := (getLink s addr).ID }) },
        { l with ID := (getLink s addr).ID }, none) := by
  simp [UpsertLink, h]

theorem UpsertLink_eq_new {s : InMemoryGraph} {l : Link} {n : Nat}
    (h : alookup s.linkURLIndex l.URL = none) :
    UpsertLink s l n =
      ({ s with
          linkHeap := s.linkHeap ++ [{ l with ID := n }]
          linkURLIndex := aset s.linkURLIndex l.URL s.linkHeap.length
          links := aset s.links n s.linkHeap.length },
        { l with ID := n }, none) := by
  simp [UpsertLink, h]

theorem Inv_upsertLink {s : InMemoryGraph} {l : Link} {n : Nat}
    (hInv : Inv s) (hv : validOp s (.upsertLink l n)) :
    Inv (UpsertLink s l n).1 := by
  cases h : alookup s.linkURLIndex l.URL with
  | some addr =>
      obtain ⟨h1, h2, h3⟩ := hInv.urlWF _ _ h
      rw [UpsertLink_eq_found h]
      refine Inv_setLink hInv h1 ?_ ?_
      · by_cases hc : (getLink s addr).RetrievedAt > l.RetrievedAt <;>
          simp [hc]
      · by_cases hc : (getLink s addr).RetrievedAt > l.RetrievedAt <;>
          simp [hc, h2]
  | none =>
      have hn : n < 2 ^ 128 ∧ alookup s.links n = none := by
        rcases hv with hv | hv
        · rw [h] at hv; simp at hv
        · exact hv
      rw [UpsertLink_eq_new h]
      set A := s.linkHeap.length with hA
      set newCell : Link := { l with ID := n } with hnc
      set t : InMemoryGraph :=
        { s with
            linkHeap := s.linkHeap ++ [newCell]
            linkURLIndex := aset s.linkURLIndex l.URL A
            links := aset s.links n A } with hts
      show Inv t
      have hgetA : getLink t A = newCell := by
        simp only [getLink, hts]
        exact getD_append_len s.linkHeap newCell
      have hgetLt : ∀ a, a < A → getLink t a = getLink s a := by
        intro a ha
        simp only [getLink, hts]
        exact getD_append_lt newCell ha
      have hlen : t.linkHeap.length = A + 1 := by simp [hts]
      have hge : getEdge t = getEdge s := rfl
      have hadj : adj t = adj s := rfl
      refine ⟨keys_nodup_aset n A hInv.linksKeysNodup,
        keys_nodup_aset l.URL A hInv.urlKeysNodup,
        hInv.edgesKeysNodup, ?_, ?_, ?_, ?_, ?_, ?_, ?_, ?_⟩
      · intro k a hk
        rw [show t.links = aset s.links n A from rfl, alookup_aset] at hk
        by_cases hnk : n = k
        · subst hnk
          rw [if_pos rfl] at hk
          obtain rfl : A = a := by simpa using hk
          rw [hgetA]
          exact ⟨by omega, rfl, hn.1⟩
        · rw [if_neg hnk] at hk
          obtain ⟨e1, e2, e3⟩ := hInv.linksWF k a hk
          rw [hgetLt a e1]
          exact ⟨by omega, e2, e3⟩
      · intro u a hu
        rw [show t.linkURLIndex = aset s.linkURLIndex l.URL A from rfl,
          alookup_aset] at hu
        by_cases huu : l.URL = u
        · subst huu
          rw [if_pos rfl] at hu
          obtain rfl : A = a := by simpa using hu
          rw [hgetA]
          refine ⟨by omega, rfl, ?_⟩
          rw [show t.links = aset s.links n A from rfl, alookup_aset,
            show newCell.ID = n from rfl, if_pos rfl]
        · rw [if_neg huu] at hu
          obtain ⟨e1, e2, e3⟩ := hInv.urlWF u a hu
          rw [hgetLt a e1]
          refine ⟨by omega, e2, ?_⟩
          rw [show t.links = aset s.links n A from rfl, alookup_aset]
          have hne : ¬ n = (getLink s a).ID := by
            intro hh
            rw [← hh] at e3
            rw [hn.2] at e3
            exact Option.noConfusion e3
          rw [if_neg hne]
          exact e3
      · intro k a hk
        rw [show t.links = aset s.links n A from rfl, alookup_aset] at hk
        by_cases hnk : n = k
        · subst hnk
          rw [if_pos rfl] at hk
          obtain rfl : A = a := by simpa using hk
          rw [hgetA, show t.linkURLIndex = aset s.linkURLIndex l.URL A from rfl,
            alookup_aset, show newCell.URL = l.URL from rfl, if_pos rfl]
        · rw [if_neg hnk] at hk
          have e1 := (hInv.linksWF k a hk).1
          rw [hgetLt a e1,
            show t.linkURLIndex = aset s.linkURLIndex l.URL A from rfl,
            alookup_aset]
          have hne : ¬ l.URL = (getLink s a).URL := by
            intro hh
            have := hInv.linksURL k a hk
            rw [← hh, h] at this
            exact Option.noConfusion this
          rw [if_neg hne]
          exact hInv.linksURL k a hk
      · intro k a hk
        rw [show t.edgeHeap = s.edgeHeap from rfl]
        exact hInv.edgesWF k a hk
      · intro k a hk
        obtain ⟨e1, e2⟩ := hInv.edgesEnds k a hk
        constructor
        · show (alookup (aset s.links n A) (getEdge s a).Src).isSome
          rw [alookup_aset]
          by_cases hh : n = (getEdge s a).Src
          · rw [if_pos hh]; rfl
          · simpa [hh] using e1
        · show (alookup (aset s.links n A) (getEdge s a).Dst).isSome
          rw [alookup_aset]
          by_cases hh : n = (getEdge s a).Dst
          · rw [if_pos hh]; rfl
          · simpa [hh] using e2
      · intro src
        rw [hadj, hge]
        exact hInv.adjWF src
      · intro k a hk
        rw [hadj, hge]
        exact hInv.adjComplete k a hk
      · intro k1 a1 k2 a2 h1 h2 h3 h4
        rw [hge] at h3 h4
        exact hInv.pairUnique k1 a1 k2 a2 h1 h2 h3 h4

/-! ### `UpsertEdge`: scan lemmas, branch equations, invariant preservation -/

theorem scanEdgeList_cons (s : InMemoryGraph) (eid : Nat) (rest : List Nat)
    (src dst : Nat) :
    scanEdgeList s (eid :: rest) src dst =
      (match alookup s.edges eid with
        | some eaddr =>
            if (getEdge s eaddr).Src = src ∧ (getEdge s eaddr).Dst = dst then
              some eaddr
            else none
        | none => none).orElse (fun _ => scanEdgeList s rest src dst) := by
  rw [scanEdgeList, List.findSome?_cons]
  cases he : alookup s.edges eid with
  | none => rfl
  | some ea =>
      dsimp only
      by_cases hm : (getEdge s ea).Src = src ∧ (getEdge s ea).Dst = dst
      · rw [if_pos hm]
        rfl
      · rw [if_neg hm]
        rfl

theorem scanEdgeList_some {s : InMemoryGraph} {lst : List Nat}
    {src dst a : Nat} (h : scanEdgeList s lst src dst = some a) :
    ∃ eid ∈ lst, alookup s.edges eid = some a ∧
      (getEdge s a).Src = src ∧ (getEdge s a).Dst = dst := by
  induction lst with
  | nil => simp [scanEdgeList] at h
  | cons eid rest ih =>
      rw [scanEdgeList_cons] at h
      cases he : alookup s.edges eid with
      | none =>
          rw [he] at h
          obtain ⟨e', he', hrest⟩ :=
            ih (show scanEdgeList s rest src dst = some a from h)
          exact ⟨e', List.mem_cons_of_mem _ he', hrest⟩
      | some ea =>
          rw [he] at h
          dsimp only at h
          by_cases hm : (getEdge s ea).Src = src ∧ (getEdge s ea).Dst = dst
          · rw [if_pos hm] at h
            obtain rfl : ea = a :=
              Option.some.inj (show some ea = some a from h)
            exact ⟨eid, List.mem_cons_self eid rest, he, hm⟩
          · rw [if_neg hm] at h
            obtain ⟨e', he', hrest⟩ :=
              ih (show scanEdgeList s rest src dst = some a from h)
            exact ⟨e', List.mem_cons_of_mem _ he', hrest⟩

theorem scanEdgeList_none {s : InMemoryGraph} {lst : List Nat}
    {src dst : Nat} (h : scanEdgeList s lst src dst = none) :
    ∀ eid ∈ lst, ∀ a, alookup s.edges eid = some a →
      ¬ ((getEdge s a).Src = src ∧ (getEdge s a).Dst = dst) := by
  induction lst with
  | nil => intro eid he; simp at he
  | cons e0 rest ih =>
      rw [scanEdgeList_cons] at h
      intro eid he a ha hm
      rcases List.mem_cons.mp he with rfl | he'
      · rw [ha] at h
        dsimp only at h
        rw [if_pos hm] at h
        exact Option.noConfusion (show some a = (none : Option Nat) from h)
      · cases he0 : alookup s.edges e0 with
        | none =>
            rw [he0] at h
            exact ih (show scanEdgeList s rest src dst = none from h)
              eid he' a ha hm
        | some ea =>
            rw [he0] at h
            dsimp only at h
            by_cases hm0 : (getEdge s ea).Src = src ∧ (getEdge s ea).Dst = dst
            · rw [if_pos hm0] at h
              exact Option.noConfusion (show some ea = (none : Option Nat) from h)
            · rw [if_neg hm0] at h
              exact ih (show scanEdgeList s rest src dst = none from h)
                eid he' a ha hm

theorem UpsertEdge_eq_err {s : InMemoryGraph} {e : Edge} {n : Nat} {t : Int}
    (h : (alookup s.links e.Src).isNone ∨ (alookup s.links e.Dst).isNone) :
    UpsertEdge s e n t = (s, .error ⟨"upsert edge", .ErrUnknownEdgeLinks⟩) := by
  rw [UpsertEdge, if_pos h]

theorem UpsertEdge_eq_refresh {s : InMemoryGraph} {e : Edge} {n : Nat}
    {t : Int} {a : Nat}
    (h : ¬ ((alookup s.links e.Src).isNone ∨ (alookup s.links e.Dst).isNone))
    (hscan : scanEdgeList s (adj s e.Src) e.Src e.Dst = some a) :
    UpsertEdge s e n t =
      ({ s with edgeHeap := s.edgeHeap.set a { getEdge s a with UpdatedAt := t } },
        .ok { getEdge s a with UpdatedAt := t }) := by
  rw [UpsertEdge, if_neg h]
  have : (alookup s.linkEdgeMap e.Src |>.getD []) = adj s e.Src := rfl
  rw [this, hscan]

theorem UpsertEdge_eq_new {s : InMemoryGraph} {e : Edge} {n : Nat} {t : Int}
    (h : ¬ ((alookup s.links e.Src).isNone ∨ (alookup s.links e.Dst).isNone))
    (hscan : scanEdgeList s (adj s e.Src) e.Src e.Dst = none) :
    UpsertEdge s e n t =
      ({ s with
          edgeHeap := s.edgeHeap ++ [{ e with ID := n, UpdatedAt := t }]
          edges := aset s.edges n s.edgeHeap.length
          linkEdgeMap := aset s.linkEdgeMap e.Src (adj s e.Src ++ [n]) },
        .ok { e with ID := n, UpdatedAt := t }) := by
  rw [UpsertEdge, if_neg h]
  have : (alookup s.linkEdgeMap e.Src |>.getD []) = adj s e.Src := rfl
  rw [this, hscan]

theorem Inv_upsertEdge {s : InMemoryGraph} {e : Edge} {n : Nat} {t : Int}
    (hInv : Inv s) (hv : validOp s (.upsertEdge e n t)) :
    Inv (UpsertEdge s e n t).1 := by
  by_cases hend : (alookup s.links e.Src).isNone ∨ (alookup s.links e.Dst).isNone
  · rw [UpsertEdge_eq_err hend]
    exact hInv
  · cases hscan : scanEdgeList s (adj s e.Src) e.Src e.Dst with
    | some a =>
        obtain ⟨eid, hmem, hlook, hsrc, hdst⟩ := scanEdgeList_some hscan
        obtain ⟨hlt, hid, hbound⟩ := hInv.edgesWF eid a hlook
        rw [UpsertEdge_eq_refresh hend hscan]
        exact Inv_setEdge hInv hlt rfl rfl rfl
    | none =>
        have hn : n < 2 ^ 128 ∧ alookup s.edges n = none := by
          rcases hv with hv | hv | hv | hv
          · exact absurd (Or.inl hv) hend
          · exact absurd (Or.inr hv) hend
          · rw [hscan] at hv; simp at hv
          · exact hv
        rw [UpsertEdge_eq_new hend hscan]
        set A := s.edgeHeap.length with hA
        set cell : Edge := { e with ID := n, UpdatedAt := t } with hcell
        set g : InMemoryGraph :=
          { s with
              edgeHeap := s.edgeHeap ++ [cell]
              edges := aset s.edges n A
              linkEdgeMap := aset s.linkEdgeMap e.Src (adj s e.Src ++ [n]) } with hg
        show Inv g
        have hgetA : getEdge g A = cell := by
          simp only [getEdge, hg]
          exact getD_append_len s.edgeHeap cell
        have hgetLt : ∀ a, a < A → getEdge g a = getEdge s a := by
          intro a ha
          simp only [getEdge, hg]
          exact getD_append_lt cell ha
        have hgl : getLink g = getLink s := rfl
        have hadjg : ∀ src, adj g src =
            if e.Src = src then adj s e.Src ++ [n] else adj s src := by
          intro src
          simp only [adj, show g.linkEdgeMap =
            aset s.linkEdgeMap e.Src (adj s e.Src ++ [n]) from rfl, alookup_aset]
          by_cases hh : e.Src = src
          · rw [if_pos hh, if_pos hh]
            rfl
          · rw [if_neg hh, if_neg hh]
        have hfreshAdj : ∀ src, n ∉ adj s src := by
          intro src hmem
          obtain ⟨a, ha, _⟩ := (hInv.adjWF src).2 n hmem
          rw [hn.2] at ha
          exact Option.noConfusion ha
        have hlookg : ∀ k, alookup g.edges k =
            if n = k then some A else alookup s.edges k := by
          intro k
          rw [show g.edges = aset s.edges n A from rfl, alookup_aset]
        have hends : (alookup s.links e.Src).isSome ∧
            (alookup s.links e.Dst).isSome := by
          rcases h1 : alookup s.links e.Src with _ | v1
          · exact absurd (Or.inl (by rw [h1]; rfl)) hend
          · rcases h2 : alookup s.links e.Dst with _ | v2
            · exact absurd (Or.inr (by rw [h2]; rfl)) hend
            · exact ⟨rfl, rfl⟩
        refine ⟨hInv.linksKeysNodup, hInv.urlKeysNodup,
          keys_nodup_aset n A hInv.edgesKeysNodup, ?_, ?_, ?_, ?_, ?_, ?_, ?_, ?_⟩
        · intro k a hk
          exact hInv.linksWF k a hk
        · intro u a hu
          exact hInv.urlWF u a hu
        · intro k a hk
          exact hInv.linksURL k a hk
        · intro k a hk
          rw [hlookg] at hk
          by_cases hnk : n = k
          · subst hnk
            rw [if_pos rfl] at hk
            obtain rfl : A = a := by simpa using hk
            rw [hgetA]
            refine ⟨?_, rfl, hn.1⟩
            simp [hg]
          · rw [if_neg hnk] at hk
            obtain ⟨e1, e2, e3⟩ := hInv.edgesWF k a hk
            rw [hgetLt a e1]
            refine ⟨?_, e2, e3⟩
            simp only [hg]
            simp
            omega
        · intro k a hk
          rw [hlookg] at hk
          by_cases hnk : n = k
          · subst hnk
            rw [if_pos rfl] at hk
            obtain rfl : A = a := by simpa using hk
            rw [hgetA]
            exact hends
          · rw [if_neg hnk] at hk
            obtain ⟨e1, e2⟩ := hInv.edgesEnds k a hk
            rw [hgetLt a (hInv.edgesWF k a hk).1]
            exact ⟨e1, e2⟩
        · intro src
          rw [hadjg]
          by_cases hh : e.Src = src
          · rw [if_pos hh]
            constructor
            · rw [List.nodup_append]
              refine ⟨(hInv.adjWF e.Src).1, List.nodup_singleton n, ?_⟩
              intro x hx hx1
              simp at hx1
              subst hx1
              exact hfreshAdj e.Src hx
            · intro eid he
              rcases List.mem_append.mp he with he' | he'
              · obtain ⟨a, ha, hsa⟩ := (hInv.adjWF e.Src).2 eid he'
                have hne : ¬ n = eid := by
                  intro hh2
                  subst hh2
                  rw [hn.2] at ha
                  exact Option.noConfusion ha
                refine ⟨a, by rw [hlookg, if_neg hne]; exact ha, ?_⟩
                rw [hgetLt a (hInv.edgesWF eid a ha).1, ← hh]
                exact hsa
              · simp at he'
                subst he'
                refine ⟨A, by rw [hlookg, if_pos rfl], ?_⟩
                rw [hgetA, ← hh]
          · rw [if_neg hh]
            constructor
            · exact (hInv.adjWF src).1
            · intro eid he
              obtain ⟨a, ha, hsa⟩ := (hInv.adjWF src).2 eid he
              have hne : ¬ n = eid := by
                intro hh2
                subst hh2
                rw [hn.2] at ha
                exact Option.noConfusion ha
              refine ⟨a, by rw [hlookg, if_neg hne]; exact ha, ?_⟩
              rw [hgetLt a (hInv.edgesWF eid a ha).1]
              exact hsa
        · intro k a hk
          rw [hlookg] at hk
          by_cases hnk : n = k
          · subst hnk
            rw [if_pos rfl] at hk
            obtain rfl : A = a := by simpa using hk
            rw [hgetA, hadjg]
            rw [show cell.Src = e.Src from rfl, if_pos rfl]
            exact List.mem_append.mpr (Or.inr (by simp))
          · rw [if_neg hnk] at hk
            have hmem := hInv.adjComplete k a hk
            rw [hgetLt a (hInv.edgesWF k a hk).1, hadjg]
            by_cases hh : e.Src = (getEdge s a).Src
            · rw [if_pos hh]
              refine List.mem_append.mpr (Or.inl ?_)
              rw [hh]
              exact hmem
            · rw [if_neg hh]
              exact hmem
        · intro k1 a1 k2 a2 h1 h2 h3 h4
          rw [hlookg] at h1 h2
          by_cases hk1 : n = k1 <;> by_cases hk2 : n = k2
          · rw [← hk1, ← hk2]
          · subst hk1
            rw [if_pos rfl] at h1
            obtain rfl : A = a1 := by simpa using h1
            rw [if_neg hk2] at h2
            rw [hgetA] at h3 h4
            rw [hgetLt a2 (hInv.edgesWF k2 a2 h2).1] at h3 h4
            have hmem := hInv.adjComplete k2 a2 h2
            rw [← h3] at hmem
            exact absurd ⟨h3.symm ▸ rfl, h4.symm ▸ rfl⟩
              (scanEdgeList_none hscan k2 (by
                rw [show cell.Src = e.Src from rfl] at hmem
                exact hmem) a2 h2)
          · subst hk2
            rw [if_pos rfl] at h2
            obtain rfl : A = a2 := by simpa using h2
            rw [if_neg hk1] at h1
            rw [hgetA] at h3 h4
            rw [hgetLt a1 (hInv.edgesWF k1 a1 h1).1] at h3 h4
            have hmem := hInv.adjComplete k1 a1 h1
            rw [h3] at hmem
            exact absurd ⟨h3 ▸ rfl, h4 ▸ rfl⟩
              (scanEdgeList_none hscan k1 (by
                rw [show cell.Src = e.Src from rfl] at hmem
                exact hmem) a1 h1)
          · rw [if_neg hk1] at h1
            rw [if_neg hk2] at h2
            rw [hgetLt a1 (hInv.edgesWF k1 a1 h1).1,
              hgetLt a2 (hInv.edgesWF k2 a2 h2).1] at h3 h4
            exact hInv.pairUnique k1 a1 k2 a2 h1 h2 h3 h4

/-! ### `RemoveStaleEdges`: fold characterization and invariant preservation -/

/-- The loop body of `RemoveStaleEdges` (named for reuse in proofs). -/
def rsStep (s : InMemoryGraph) (updatedBefore : Int)
    (acc : List (Nat × Nat) × List Nat) (edgeID : Nat) :
    List (Nat × Nat) × List Nat :=
  match alookup acc.1 edgeID with
  | some eaddr =>
      if (getEdge s eaddr).UpdatedAt < updatedBefore then
        (aerase acc.1 edgeID, acc.2)
      else
        (acc.1, acc.2 ++ [edgeID])
  | none => acc

theorem RemoveStaleEdges_eq (s : InMemoryGraph) (fromID : Nat)
    (updatedBefore : Int) :
    RemoveStaleEdges s fromID updatedBefore =
      (let r := (adj s fromID).foldl (rsStep s updatedBefore) (s.edges, [])
       ({ s with
            edges := r.1
            linkEdgeMap := aset s.linkEdgeMap fromID r.2 }, none)) := rfl

/-- An edge key that the pruning threshold condemns: present in the edge
map and strictly older than the threshold. -/
def isStale (s : InMemoryGraph) (updatedBefore : Int) (k : Nat) : Bool :=
  match alookup s.edges k with
  | some a => decide ((getEdge s a).UpdatedAt < updatedBefore)
  | none => false

theorem rsFold_char (s : InMemoryGraph) (t : Int) :
    ∀ (L : List Nat) (E : List (Nat × Nat)) (ks : List Nat),
      (E.map Prod.fst).Nodup → L.Nodup →
      (∀ eid ∈ L, alookup E eid = alookup s.edges eid) →
      ((L.foldl (rsStep s t) (E, ks)).1.map Prod.fst).Nodup ∧
        (∀ k, alookup (L.foldl (rsStep s t) (E, ks)).1 k =
          if k ∈ L ∧ isStale s t k then none else alookup E k) ∧
        (L.foldl (rsStep s t) (E, ks)).2 =
          ks ++ L.filter
            (fun eid => (alookup s.edges eid).isSome && ! isStale s t eid) := by
  intro L
  induction L with
  | nil =>
      intro E ks hE _ _
      refine ⟨hE, fun k => ?_, by simp⟩
      simp
  | cons eid rest ih =>
      intro E ks hE hL hsync
      have hLrest : rest.Nodup := hL.of_cons
      have hnotmem : eid ∉ rest := by
        rw [List.nodup_cons] at hL
        exact hL.1
      have hsynchead : alookup E eid = alookup s.edges eid :=
        hsync eid (List.mem_cons_self _ _)
      rw [List.foldl_cons]
      cases hl : alookup E eid with
      | none =>
          have hstep : rsStep s t (E, ks) eid = (E, ks) := by
            rw [rsStep]
            rw [show alookup (E, ks).1 eid = alookup E eid from rfl, hl]
          rw [hstep]
          have hnone : alookup s.edges eid = none := by
            rw [← hsynchead, hl]
          have hstale : isStale s t eid = false := by
            rw [isStale, hnone]
          obtain ⟨n1, n2, n3⟩ := ih E ks hE hLrest
            (fun e' he' => hsync e' (List.mem_cons_of_mem _ he'))
          refine ⟨n1, fun k => ?_, ?_⟩
          · rw [n2 k]
            by_cases hk : k = eid
            · subst hk
              simp [hstale, hnotmem]
            · simp [hk]
          · rw [n3, List.filter_cons]
            simp [hnone]
      | some a =>
          by_cases hst : (getEdge s a).UpdatedAt < t
          · have hstep : rsStep s t (E, ks) eid = (aerase E eid, ks) := by
              rw [rsStep]
              rw [show alookup (E, ks).1 eid = alookup E eid from rfl, hl]
              dsimp only
              rw [if_pos hst]
            rw [hstep]
            have hsome : alookup s.edges eid = some a := by
              rw [← hsynchead, hl]
            have hstale : isStale s t eid = true := by
              rw [isStale, hsome]
              simp [hst]
            have hEer : ((aerase E eid).map Prod.fst).Nodup :=
              keys_nodup_aerase eid hE
            have hsync' : ∀ e' ∈ rest, alookup (aerase E eid) e' =
                alookup s.edges e' := by
              intro e' he'
              rw [alookup_aerase hE]
              have hne : ¬ eid = e' := fun hh => hnotmem (hh ▸ he')
              rw [if_neg hne]
              exact hsync e' (List.mem_cons_of_mem _ he')
            obtain ⟨n1, n2, n3⟩ := ih (aerase E eid) ks hEer hLrest hsync'
            refine ⟨n1, fun k => ?_, ?_⟩
            · rw [n2 k, alookup_aerase hE]
              by_cases hk : k = eid
              · subst hk
                simp [hstale, hnotmem]
              · have hne : ¬ eid = k := fun hh => hk hh.symm
                simp [hk, hne]
            · rw [n3, List.filter_cons]
              simp [hstale]
          · have hstep : rsStep s t (E, ks) eid = (E, ks ++ [eid]) := by
              rw [rsStep]
              rw [show alookup (E, ks).1 eid = alookup E eid from rfl, hl]
              dsimp only
              rw [if_neg hst]
            rw [hstep]
            have hsome : alookup s.edges eid = some a := by
              rw [← hsynchead, hl]
            have hstale : isStale s t eid = false := by
              rw [isStale, hsome]
              simp [hst]
            obtain ⟨n1, n2, n3⟩ := ih E (ks ++ [eid]) hE hLrest
              (fun e' he' => hsync e' (List.mem_cons_of_mem _ he'))
            refine ⟨n1, fun k => ?_, ?_⟩
            · rw [n2 k]
              by_cases hk : k = eid
              · subst hk
                simp [hstale, hnotmem]
              · simp [hk]
            · rw [n3, List.filter_cons]
              simp [hsome, hstale]

/-- With the invariant available, pruning from `fromID` below `t` maps the
edge map to its restriction away from the condemned keys and replaces the
adjacency list by the surviving suffix-order sublist. -/
theorem RemoveStaleEdges_char {s : InMemoryGraph} (hInv : Inv s)
    (fromID : Nat) (t : Int) :
    (∀ k, alookup (RemoveStaleEdges s fromID t).1.edges k =
        if k ∈ adj s fromID ∧ isStale s t k then none else alookup s.edges k) ∧
      (RemoveStaleEdges s fromID t).1.linkEdgeMap =
        aset s.linkEdgeMap fromID
          ((adj s fromID).filter (fun eid => ! isStale s t eid)) ∧
      (((RemoveStaleEdges s fromID t).1.edges).map Prod.fst).Nodup := by
  obtain ⟨n1, n2, n3⟩ := rsFold_char s t (adj s fromID) s.edges []
    hInv.edgesKeysNodup (hInv.adjWF fromID).1
    (fun _ _ => rfl)
  rw [RemoveStaleEdges_eq]
  refine ⟨fun k => n2 k, ?_, n1⟩
  show aset s.linkEdgeMap fromID
      ((adj s fromID).foldl (rsStep s t) (s.edges, [])).2 =
    aset s.linkEdgeMap fromID
      ((adj s fromID).filter (fun eid => ! isStale s t eid))
  rw [n3, List.nil_append]
  congr 1
  apply List.filter_congr
  intro eid he
  obtain ⟨a, ha, _⟩ := (hInv.adjWF fromID).2 eid he
  simp [ha]

theorem Inv_removeStaleEdges {s : InMemoryGraph} (hInv : Inv s)
    (fromID : Nat) (t : Int) :
    Inv (RemoveStaleEdges s fromID t).1 := by
  obtain ⟨hc1, hc2, hc3⟩ := RemoveStaleEdges_char hInv fromID t
  set g := (RemoveStaleEdges s fromID t).1 with hg
  have hgl : getLink g = getLink s := rfl
  have hge : getEdge g = getEdge s := rfl
  have hlinks : g.links = s.links := rfl
  have hurl : g.linkURLIndex = s.linkURLIndex := rfl
  have hlheap : g.linkHeap = s.linkHeap := rfl
  have heheap : g.edgeHeap = s.edgeHeap := rfl
  have hadjg : ∀ src, adj g src =
      if fromID = src then
        (adj s fromID).filter (fun eid => ! isStale s t eid)
      else adj s src := by
    intro src
    rw [adj, hc2, alookup_aset]
    by_cases hh : fromID = src
    · rw [if_pos hh, if_pos hh]
      rfl
    · rw [if_neg hh, if_neg hh]
      rfl
  have hlookE : ∀ k a, alookup g.edges k = some a →
      alookup s.edges k = some a := by
    intro k a hk
    rw [hc1 k] at hk
    by_cases hcond : k ∈ adj s fromID ∧ isStale s t k
    · rw [if_pos hcond] at hk
      exact Option.noConfusion hk
    · rw [if_neg hcond] at hk
      exact hk
  refine ⟨?_, ?_, hc3, ?_, ?_, ?_, ?_, ?_, ?_, ?_, ?_⟩
  · rw [hlinks]
    exact hInv.linksKeysNodup
  · rw [hurl]
    exact hInv.urlKeysNodup
  · intro k a hk
    rw [hlinks] at hk
    rw [hgl, hlheap]
    exact hInv.linksWF k a hk
  · intro u a hu
    rw [hurl] at hu
    rw [hgl, hlheap, hlinks]
    exact hInv.urlWF u a hu
  · intro k a hk
    rw [hlinks] at hk
    rw [hgl, hurl]
    exact hInv.linksURL k a hk
  · intro k a hk
    rw [hge, heheap]
    exact hInv.edgesWF k a (hlookE k a hk)
  · intro k a hk
    rw [hge, hlinks]
    exact hInv.edgesEnds k a (hlookE k a hk)
  · intro src
    rw [hadjg, hge]
    by_cases hh : fromID = src
    · rw [if_pos hh]
      constructor
      · exact List.Nodup.filter _ (hInv.adjWF fromID).1
      · intro eid he
        rw [List.mem_filter] at he
        obtain ⟨a, ha, hsa⟩ := (hInv.adjWF fromID).2 eid he.1
        refine ⟨a, ?_, hh ▸ hsa⟩
        rw [hc1 eid, if_neg ?_]
        · exact ha
        · intro hcond
          rw [hcond.2] at he
          simp at he
    · rw [if_neg hh]
      constructor
      · exact (hInv.adjWF src).1
      · intro eid he
        obtain ⟨a, ha, hsa⟩ := (hInv.adjWF src).2 eid he
        refine ⟨a, ?_, hsa⟩
        rw [hc1 eid, if_neg ?_]
        · exact ha
        · intro hcond
          obtain ⟨b, hb, hsb⟩ := (hInv.adjWF fromID).2 eid hcond.1
          rw [ha] at hb
          obtain rfl : a = b := by simpa using hb
          refine hh ?_
          rw [← hsb]
          exact hsa
  · intro k a hk
    have hk' := hlookE k a hk
    have hmem := hInv.adjComplete k a hk'
    rw [hge, hadjg]
    by_cases hh : fromID = (getEdge s a).Src
    · rw [if_pos hh]
      rw [List.mem_filter]
      refine ⟨hh ▸ hmem, ?_⟩
      rw [hc1 k] at hk
      by_cases hcond : k ∈ adj s fromID ∧ isStale s t k
      · rw [if_pos hcond] at hk
        exact Option.noConfusion hk
      · simp only [not_and] at hcond
        simp [hcond (hh ▸ hmem)]
    · rw [if_neg hh]
      exact hmem
  · intro k1 a1 k2 a2 h1 h2 h3 h4
    rw [hge] at h3 h4
    exact hInv.pairUnique k1 a1 k2 a2 (hlookE k1 a1 h1) (hlookE k2 a2 h2) h3 h4

/-! ### The invariant holds in every reachable state -/

theorem Inv_applyOp {s : InMemoryGraph} {op : Op} (hInv : Inv s)
    (hv : validOp s op) : Inv (applyOp s op) := by
  cases op with
  | upsertLink l n => exact Inv_upsertLink hInv hv
  | upsertEdge e n t => exact Inv_upsertEdge hInv hv
  | removeStaleEdges f t => exact Inv_removeStaleEdges hInv f t

theorem Inv_runOps : ∀ (ops : List Op) (s : InMemoryGraph),
    ValidOps s ops → Inv s → Inv (runOps s ops) := by
  intro ops
  induction ops with
  | nil => intro s _ hInv; exact hInv
  | cons op rest ih =>
      intro s hvs hInv
      rw [ValidOps] at hvs
      rw [runOps]
      exact ih (applyOp s op) hvs.2 (Inv_applyOp hInv hvs.1)

theorem Inv_reachable {s : InMemoryGraph} (h : Reachable s) : Inv s := by
  obtain ⟨ops, hv, hrun⟩ := h
  rw [← hrun]
  exact Inv_runOps ops NewInMemoryGraph hv Inv_new

theorem Reachable_new : Reachable NewInMemoryGraph :=
  ⟨[], trivial, rfl⟩

theorem runOps_append (ops1 ops2 : List Op) :
    ∀ s, runOps s (ops1 ++ ops2) = runOps (runOps s ops1) ops2 := by
  induction ops1 with
  | nil => intro s; rfl
  | cons o rest ih =>
      intro s
      rw [List.cons_append, runOps, runOps, ih]

theorem ValidOps_append (ops1 ops2 : List Op) :
    ∀ s, ValidOps s ops1 → ValidOps (runOps s ops1) ops2 →
      ValidOps s (ops1 ++ ops2) := by
  induction ops1 with
  | nil => intro s _ h2; exact h2
  | cons o rest ih =>
      intro s h1 h2
      rw [ValidOps] at h1
      rw [List.cons_append, ValidOps]
      exact ⟨h1.1, ih (applyOp s o) h1.2 (by rw [← runOps]; exact h2)⟩

theorem Reachable_applyOp {s : InMemoryGraph} {op : Op} (h : Reachable s)
    (hv : validOp s op) : Reachable (applyOp s op) := by
  obtain ⟨ops, hvs, hrun⟩ := h
  refine ⟨ops ++ [op], ?_, ?_⟩
  · refine ValidOps_append ops [op] NewInMemoryGraph hvs ?_
    rw [hrun]
    exact ⟨hv, trivial⟩
  · rw [runOps_append, hrun]
    rfl

/-! ### Observations of the stored link record of a URL -/

/-- The stored record for a URL, read through the URL index (the same cell
the `links` map shares in reachable states). -/
def storedByURL (s : InMemoryGraph) (u : String) : Option Link :=
  (alookup s.linkURLIndex u).map (getLink s)

theorem UpsertEdge_preserves_links (s : InMemoryGraph) (e : Edge) (n : Nat)
    (t : Int) :
    (UpsertEdge s e n t).1.linkHeap = s.linkHeap ∧
      (UpsertEdge s e n t).1.links = s.links ∧
      (UpsertEdge s e n t).1.linkURLIndex = s.linkURLIndex := by
  by_cases hend : (alookup s.links e.Src).isNone ∨ (alookup s.links e.Dst).isNone
  · rw [UpsertEdge_eq_err hend]
    exact ⟨rfl, rfl, rfl⟩
  · cases hscan : scanEdgeList s (adj s e.Src) e.Src e.Dst with
    | some a =>
        rw [UpsertEdge_eq_refresh hend hscan]
        exact ⟨rfl, rfl, rfl⟩
    | none =>
        rw [UpsertEdge_eq_new hend hscan]
        exact ⟨rfl, rfl, rfl⟩

theorem RemoveStaleEdges_preserves_links (s : InMemoryGraph) (f : Nat)
    (t : Int) :
    (RemoveStaleEdges s f t).1.linkHeap = s.linkHeap ∧
      (RemoveStaleEdges s f t).1.links = s.links ∧
      (RemoveStaleEdges s f t).1.linkURLIndex = s.linkURLIndex := by
  rw [RemoveStaleEdges_eq]
  exact ⟨rfl, rfl, rfl⟩

/-- The cell value written by the update branch of `UpsertLink`. -/
def ulCell (s : InMemoryGraph) (l : Link) (addr : Nat) : Link :=
  if (getLink s addr).RetrievedAt > l.RetrievedAt then
    { l with
        ID := (getLink s addr).ID
        RetrievedAt := (getLink s addr).RetrievedAt }
  else { l with ID := (getLink s addr).ID }

theorem UpsertLink_found_fields {s : InMemoryGraph} {l : Link} {n addr : Nat}
    (h : alookup s.linkURLIndex l.URL = some addr) :
    (UpsertLink s l n).1.linkHeap = s.linkHeap.set addr (ulCell s l addr) ∧
      (UpsertLink s l n).1.linkURLIndex = s.linkURLIndex ∧
      (UpsertLink s l n).1.links = s.links ∧
      (UpsertLink s l n).1.edgeHeap = s.edgeHeap ∧
      (UpsertLink s l n).1.edges = s.edges ∧
      (UpsertLink s l n).1.linkEdgeMap = s.linkEdgeMap := by
  rw [UpsertLink_eq_found h]
  exact ⟨rfl, rfl, rfl, rfl, rfl, rfl⟩

theorem UpsertLink_new_fields {s : InMemoryGraph} {l : Link} {n : Nat}
    (h : alookup s.linkURLIndex l.URL = none) :
    (UpsertLink s l n).1.linkHeap = s.linkHeap ++ [{ l with ID := n }] ∧
      (UpsertLink s l n).1.linkURLIndex =
        aset s.linkURLIndex l.URL s.linkHeap.length ∧
      (UpsertLink s l n).1.links = aset s.links n s.linkHeap.length ∧
      (UpsertLink s l n).1.edgeHeap = s.edgeHeap ∧
      (UpsertLink s l n).1.edges = s.edges ∧
      (UpsertLink s l n).1.linkEdgeMap = s.linkEdgeMap := by
  rw [UpsertLink_eq_new h]
  exact ⟨rfl, rfl, rfl, rfl, rfl, rfl⟩

theorem getLink_heap (s : InMemoryGraph) (a : Nat) :
    getLink s a = s.linkHeap.getD a default := rfl

theorem storedByURL_upsertLink_self {s : InMemoryGraph} {l : Link} {n : Nat}
    (hInv : Inv s) :
    storedByURL (UpsertLink s l n).1 l.URL =
      match storedByURL s l.URL with
      | some e =>
          some { ID := e.ID, URL := l.URL
                 RetrievedAt := max e.RetrievedAt l.RetrievedAt }
      | none => some { l with ID := n } := by
  cases h : alookup s.linkURLIndex l.URL with
  | some addr =>
      obtain ⟨h1, h2, h3⟩ := hInv.urlWF _ _ h
      obtain ⟨f1, f2, f3, f4, f5, f6⟩ := @UpsertLink_found_fields _ _ n _ h
      rw [storedByURL, f2, h, storedByURL, h]
      simp only [Option.map_some']
      rw [getLink_heap, f1, getD_set_self _ h1]
      rw [ulCell]
      by_cases hc : (getLink s addr).RetrievedAt > l.RetrievedAt
      · rw [if_pos hc, max_eq_left (le_of_lt hc)]
      · rw [if_neg hc, max_eq_right (le_of_not_lt hc)]
  | none =>
      obtain ⟨f1, f2, f3, f4, f5, f6⟩ := @UpsertLink_new_fields _ _ n h
      rw [storedByURL, f2, alookup_aset, if_pos rfl, storedByURL, h]
      simp only [Option.map_some']
      rw [getLink_heap, f1, getD_append_len]
      rfl

theorem storedByURL_upsertLink_other {s : InMemoryGraph} {l : Link} {n : Nat}
    {u : String} (hInv : Inv s) (hu : ¬ u = l.URL) :
    storedByURL (UpsertLink s l n).1 u = storedByURL s u := by
  cases h : alookup s.linkURLIndex l.URL with
  | some addr =>
      obtain ⟨h1, h2, h3⟩ := hInv.urlWF _ _ h
      obtain ⟨f1, f2, f3, f4, f5, f6⟩ := @UpsertLink_found_fields _ _ n _ h
      rw [storedByURL, storedByURL, f2]
      cases hu' : alookup s.linkURLIndex u with
      | none => rfl
      | some a' =>
          obtain ⟨g1, g2, g3⟩ := hInv.urlWF _ _ hu'
          have hne : addr ≠ a' := by
            intro hh
            subst hh
            rw [h2] at g2
            exact hu g2.symm
          simp only [Option.map_some']
          congr 1
          rw [getLink_heap, f1, getD_set_ne _ hne]
          rfl
  | none =>
      obtain ⟨f1, f2, f3, f4, f5, f6⟩ := @UpsertLink_new_fields _ _ n h
      rw [storedByURL, storedByURL, f2, alookup_aset,
        if_neg (fun hh => hu hh.symm)]
      cases hu' : alookup s.linkURLIndex u with
      | none => rfl
      | some a' =>
          obtain ⟨g1, g2, g3⟩ := hInv.urlWF _ _ hu'
          simp only [Option.map_some']
          congr 1
          rw [getLink_heap, f1, getD_append_lt _ g1]
          rfl

theorem storedByURL_upsertEdge (s : InMemoryGraph) (e : Edge) (n : Nat)
    (t : Int) (u : String) :
    storedByURL (UpsertEdge s e n t).1 u = storedByURL s u := by
  obtain ⟨hh, _, hu⟩ := UpsertEdge_preserves_links s e n t
  rw [storedByURL, storedByURL, hu]
  cases alookup s.linkURLIndex u with
  | none => rfl
  | some a =>
      simp only [Option.map_some']
      rw [getLink, getLink, hh]

theorem storedByURL_removeStaleEdges (s : InMemoryGraph) (f : Nat) (t : Int)
    (u : String) :
    storedByURL (RemoveStaleEdges s f t).1 u = storedByURL s u := by
  rw [RemoveStaleEdges_eq]
  rfl

/-! ### The stored timestamp is the maximum ever submitted -/

/-- Folding the submitted timestamps of upserts of URL `u` over a call
sequence: the running value is the maximum submitted so far (`none` until
the first upsert of `u`). -/
def tsAcc (u : String) : Option Int → List Op → Option Int
  | acc, [] => acc
  | acc, Op.upsertLink l _ :: rest =>
      tsAcc u
        (if l.URL = u then
          some (match acc with
            | some m => max m l.RetrievedAt
            | none => l.RetrievedAt)
        else acc) rest
  | acc, Op.upsertEdge _ _ _ :: rest => tsAcc u acc rest
  | acc, Op.removeStaleEdges _ _ :: rest => tsAcc u acc rest

theorem storedRA_runOps : ∀ (ops : List Op) (s : InMemoryGraph), Inv s →
    ValidOps s ops → ∀ u,
      (storedByURL (runOps s ops) u).map Link.RetrievedAt =
        tsAcc u ((storedByURL s u).map Link.RetrievedAt) ops := by
  intro ops
  induction ops with
  | nil => intro s _ _ u; rfl
  | cons op rest ih =>
      intro s hInv hvs u
      rw [ValidOps] at hvs
      rw [runOps]
      have hnext := ih (applyOp s op) (Inv_applyOp hInv hvs.1) hvs.2 u
      rw [hnext]
      cases op with
      | upsertLink l n =>
          show _ = tsAcc u (if l.URL = u then
            some (match (storedByURL s u).map Link.RetrievedAt with
              | some m => max m l.RetrievedAt
              | none => l.RetrievedAt)
            else (storedByURL s u).map Link.RetrievedAt) rest
          congr 1
          by_cases hu : l.URL = u
          · subst hu
            rw [if_pos rfl,
              show applyOp s (.upsertLink l n) = (UpsertLink s l n).1 from rfl,
              storedByURL_upsertLink_self hInv]
            cases hs : storedByURL s l.URL with
            | none => rfl
            | some e => rfl
          · rw [if_neg hu,
              show applyOp s (.upsertLink l n) = (UpsertLink s l n).1 from rfl,
              storedByURL_upsertLink_other hInv (fun hh => hu hh.symm)]
      | upsertEdge e n t =>
          show _ = tsAcc u ((storedByURL s u).map Link.RetrievedAt) rest
          rw [show applyOp s (.upsertEdge e n t) = (UpsertEdge s e n t).1 from rfl,
            storedByURL_upsertEdge]
      | removeStaleEdges f t =>
          show _ = tsAcc u ((storedByURL s u).map Link.RetrievedAt) rest
          rw [show applyOp s (.removeStaleEdges f t) =
              (RemoveStaleEdges s f t).1 from rfl,
            storedByURL_removeStaleEdges]

/-- One step of any public call never decreases a stored timestamp and
never changes a stored `ID`. -/
theorem storedByURL_step_mono {s : InMemoryGraph} {op : Op} {u : String}
    (hInv : Inv s) (hv : validOp s op) :
    ∀ e, storedByURL s u = some e →
      ∃ e', storedByURL (applyOp s op) u = some e' ∧ e'.ID = e.ID ∧
        e.RetrievedAt ≤ e'.RetrievedAt := by
  intro e he
  cases op with
  | upsertLink l n =>
      by_cases hu : u = l.URL
      · subst hu
        rw [show applyOp s (.upsertLink l n) = (UpsertLink s l n).1 from rfl,
          storedByURL_upsertLink_self hInv, he]
        exact ⟨_, rfl, rfl, le_max_left _ _⟩
      · rw [show applyOp s (.upsertLink l n) = (UpsertLink s l n).1 from rfl,
          storedByURL_upsertLink_other hInv hu, he]
        exact ⟨e, rfl, rfl, le_refl _⟩
  | upsertEdge e2 n t =>
      rw [show applyOp s (.upsertEdge e2 n t) = (UpsertEdge s e2 n t).1 from rfl,
        storedByURL_upsertEdge, he]
      exact ⟨e, rfl, rfl, le_refl _⟩
  | removeStaleEdges f t =>
      rw [show applyOp s (.removeStaleEdges f t) =
          (RemoveStaleEdges s f t).1 from rfl,
        storedByURL_removeStaleEdges, he]
      exact ⟨e, rfl, rfl, le_refl _⟩

/-- The caller's record after `UpsertLink` (the resolved `ID`, the caller's
own `URL` and `RetrievedAt`), and the always-`nil` error. -/
theorem UpsertLink_ret (s : InMemoryGraph) (l : Link) (n : Nat) :
    (UpsertLink s l n).2.1 =
      (match alookup s.linkURLIndex l.URL with
        | some addr => { l with ID := (getLink s addr).ID }
        | none => { l with ID := n }) ∧
    (UpsertLink s l n).2.2 = none := by
  cases h : alookup s.linkURLIndex l.URL with
  | some addr =>
      rw [UpsertLink_eq_found h]
      exact ⟨rfl, rfl⟩
  | none =>
      rw [UpsertLink_eq_new h]
      exact ⟨rfl, rfl⟩

/-! ### Concrete reachable states used by the witnesses -/

theorem Reachable_demo1 :
    Reachable (UpsertLink NewInMemoryGraph ⟨0, "a", 1⟩ 1).1 :=
  @Reachable_applyOp _ (.upsertLink ⟨0, "a", 1⟩ 1) Reachable_new (by decide)

theorem Reachable_demo2 :
    Reachable (UpsertLink (UpsertLink NewInMemoryGraph ⟨0, "a", 1⟩ 1).1
      ⟨0, "b", 1⟩ 2).1 :=
  @Reachable_applyOp _ (.upsertLink ⟨0, "b", 1⟩ 2) Reachable_demo1
    (by decide)

theorem Reachable_demo3 :
    Reachable (UpsertEdge (UpsertLink (UpsertLink NewInMemoryGraph
      ⟨0, "a", 1⟩ 1).1 ⟨0, "b", 1⟩ 2).1 ⟨0, 1, 2, 0⟩ 7 5).1 :=
  @Reachable_applyOp _ (.upsertEdge ⟨0, 1, 2, 0⟩ 7 5) Reachable_demo2
    (by decide)

theorem Reachable_demoA :
    Reachable (UpsertLink NewInMemoryGraph ⟨0, "a", 100⟩ 1).1 :=
  @Reachable_applyOp _ (.upsertLink ⟨0, "a", 100⟩ 1) Reachable_new
    (by decide)

/-! ### Claim C1 -/

/-- C1: for call sequences on the in-memory graph, the stored `RetrievedAt`
of a URL is the maximum timestamp ever submitted for it (part 1); no public
call decreases it or changes the stored `ID` (part 2); and upserting a URL
first seen with `t1` and then with `t2 < t1` leaves the stored record with
`RetrievedAt = t1` and the same `ID` after both calls (part 3). -/
theorem C1_stored_timestamp_is_max :
    (∀ (ops : List Op), ValidOps NewInMemoryGraph ops → ∀ u,
      (storedByURL (runOps NewInMemoryGraph ops) u).map Link.RetrievedAt =
        tsAcc u none ops) ∧
    (∀ (s : InMemoryGraph) (op : Op) (u : String) (e : Link),
      Reachable s → validOp s op → storedByURL s u = some e →
      ∃ e', storedByURL (applyOp s op) u = some e' ∧ e'.ID = e.ID ∧
        e.RetrievedAt ≤ e'.RetrievedAt) ∧
    (∀ (s : InMemoryGraph) (l1 l2 : Link) (n1 n2 : Nat),
      Reachable s → storedByURL s l1.URL = none → l2.URL = l1.URL →
      l2.RetrievedAt < l1.RetrievedAt →
      validOp s (.upsertLink l1 n1) →
      storedByURL (applyOp s (.upsertLink l1 n1)) l1.URL =
        some { ID := n1, URL := l1.URL, RetrievedAt := l1.RetrievedAt } ∧
      storedByURL
          (applyOp (applyOp s (.upsertLink l1 n1)) (.upsertLink l2 n2))
          l1.URL =
        some { ID := n1, URL := l1.URL, RetrievedAt := l1.RetrievedAt }) := by
  refine ⟨?_, ?_, ?_⟩
  · intro ops hv u
    exact storedRA_runOps ops NewInMemoryGraph Inv_new hv u
  · intro s op u e hs hv he
    exact storedByURL_step_mono (Inv_reachable hs) hv e he
  · intro s l1 l2 n1 n2 hs hnone hurl hlt hv1
    have hInv := Inv_reachable hs
    have h1 : storedByURL (applyOp s (.upsertLink l1 n1)) l1.URL =
        some { ID := n1, URL := l1.URL, RetrievedAt := l1.RetrievedAt } := by
      rw [show applyOp s (.upsertLink l1 n1) = (UpsertLink s l1 n1).1 from rfl,
        storedByURL_upsertLink_self hInv, hnone]
    refine ⟨h1, ?_⟩
    have hInv1 := Inv_applyOp hInv hv1
    rw [← hurl,
      show applyOp (applyOp s (.upsertLink l1 n1)) (.upsertLink l2 n2) =
        (UpsertLink (applyOp s (.upsertLink l1 n1)) l2 n2).1 from rfl,
      storedByURL_upsertLink_self hInv1, hurl, h1]
    have hmax : max l1.RetrievedAt l2.RetrievedAt = l1.RetrievedAt :=
      max_eq_left (le_of_lt hlt)
    show (some { ID := n1, URL := l1.URL, RetrievedAt := max l1.RetrievedAt l2.RetrievedAt } : Option Link) =
      some { ID := n1, URL := l1.URL, RetrievedAt := l1.RetrievedAt }
    rw [hmax]

theorem C1_stored_timestamp_is_max_witness :
    ((storedByURL (runOps NewInMemoryGraph
        [Op.upsertLink ⟨0, "a", 100⟩ 1, Op.upsertLink ⟨0, "a", 50⟩ 2])
          "a").map Link.RetrievedAt =
      tsAcc "a" none
        [Op.upsertLink ⟨0, "a", 100⟩ 1, Op.upsertLink ⟨0, "a", 50⟩ 2]) ∧
    storedByURL
        (applyOp (applyOp NewInMemoryGraph (.upsertLink ⟨0, "a", 100⟩ 1))
          (.upsertLink ⟨0, "a", 50⟩ 2)) "a" =
      some { ID := 1, URL := "a", RetrievedAt := 100 } :=
  ⟨C1_stored_timestamp_is_max.1 _ (by decide) "a",
    (C1_stored_timestamp_is_max.2.2 NewInMemoryGraph ⟨0, "a", 100⟩
      ⟨0, "a", 50⟩ 1 2 Reachable_new rfl rfl (by decide) (by decide)).2⟩

/-! ### Claim C8 -/

/-- C8 as stated is false: on the update path the code restores the maximal
timestamp only in the stored cell (`existing.RetrievedAt = origTs`), never
in the caller's record, so after upserting `{"a", 100}` and then
`{"a", 50}` the caller's record reads 50 while the store holds 100. -/
theorem C8_counterexample :
    (UpsertLink (UpsertLink NewInMemoryGraph ⟨0, "a", 100⟩ 1).1
        ⟨0, "a", 50⟩ 2).2.1.RetrievedAt = 50 ∧
    storedByURL (UpsertLink (UpsertLink NewInMemoryGraph ⟨0, "a", 100⟩ 1).1
        ⟨0, "a", 50⟩ 2).1 "a" =
      some { ID := 1, URL := "a", RetrievedAt := 100 } := by
  constructor <;> rfl

/-- C8 amended: after every `UpsertLink` call the caller's record holds the
resolved `ID` (the existing link's on update, the fresh one on insert) and
its own submitted `URL`/`RetrievedAt`; the stored record holds the maximal
`RetrievedAt`; and the call never returns an error. -/
theorem C8_upsertLink_writeback :
    ∀ (s : InMemoryGraph) (l : Link) (n : Nat), Reachable s →
      (UpsertLink s l n).2.2 = none ∧
      (UpsertLink s l n).2.1.URL = l.URL ∧
      (UpsertLink s l n).2.1.RetrievedAt = l.RetrievedAt ∧
      ∃ e', storedByURL (UpsertLink s l n).1 l.URL = some e' ∧
        (UpsertLink s l n).2.1.ID = e'.ID ∧
        e'.RetrievedAt = (match storedByURL s l.URL with
          | some e => max e.RetrievedAt l.RetrievedAt
          | none => l.RetrievedAt) := by
  intro s l n hs
  have hInv := Inv_reachable hs
  obtain ⟨hret, herr⟩ := UpsertLink_ret s l n
  refine ⟨herr, ?_, ?_, ?_⟩
  · rw [hret]
    cases alookup s.linkURLIndex l.URL <;> rfl
  · rw [hret]
    cases alookup s.linkURLIndex l.URL <;> rfl
  · rw [storedByURL_upsertLink_self hInv, hret]
    cases h : alookup s.linkURLIndex l.URL with
    | some addr =>
        rw [show storedByURL s l.URL = some (getLink s addr) by
          rw [storedByURL, h]; rfl]
        exact ⟨_, rfl, rfl, rfl⟩
    | none =>
        rw [show storedByURL s l.URL = none by rw [storedByURL, h]; rfl]
        exact ⟨_, rfl, rfl, rfl⟩

theorem C8_upsertLink_writeback_witness :
    (UpsertLink NewInMemoryGraph ⟨0, "a", 100⟩ 1).2.2 = none ∧
    (UpsertLink NewInMemoryGraph ⟨0, "a", 100⟩ 1).2.1.RetrievedAt = 100 :=
  ⟨(C8_upsertLink_writeback NewInMemoryGraph ⟨0, "a", 100⟩ 1 Reachable_new).1,
    (C8_upsertLink_writeback NewInMemoryGraph ⟨0, "a", 100⟩ 1
      Reachable_new).2.2.1⟩

/-! ### Successful `UpsertEdge` calls -/

theorem UpsertEdge_ok_spec {s : InMemoryGraph} {e : Edge} {n : Nat} {t : Int}
    (hInv : Inv s) (hsrc : (alookup s.links e.Src).isSome)
    (hdst : (alookup s.links e.Dst).isSome) :
    ∃ r, (UpsertEdge s e n t).2 = .ok r ∧ r.Src = e.Src ∧ r.Dst = e.Dst ∧
      r.UpdatedAt = t ∧
      ∃ a1, alookup (UpsertEdge s e n t).1.edges r.ID = some a1 ∧
        getEdge (UpsertEdge s e n t).1 a1 = r := by
  have hend : ¬ ((alookup s.links e.Src).isNone ∨
      (alookup s.links e.Dst).isNone) := by
    rcases Option.isSome_iff_exists.mp hsrc with ⟨v1, hv1⟩
    rcases Option.isSome_iff_exists.mp hdst with ⟨v2, hv2⟩
    simp [hv1, hv2]
  cases hscan : scanEdgeList s (adj s e.Src) e.Src e.Dst with
  | some a =>
      obtain ⟨eid, hmem, hlook, hS, hD⟩ := scanEdgeList_some hscan
      obtain ⟨hlt, hid, _⟩ := hInv.edgesWF eid a hlook
      rw [UpsertEdge_eq_refresh hend hscan]
      refine ⟨_, rfl, hS, hD, rfl, a, ?_, ?_⟩
      · show alookup s.edges (getEdge s a).ID = some a
        rw [hid]
        exact hlook
      · show (s.edgeHeap.set a { getEdge s a with UpdatedAt := t }).getD a
            default = { getEdge s a with UpdatedAt := t }
        exact getD_set_self _ hlt
  | none =>
      rw [UpsertEdge_eq_new hend hscan]
      refine ⟨_, rfl, rfl, rfl, rfl, s.edgeHeap.length, ?_, ?_⟩
      · show alookup (aset s.edges n s.edgeHeap.length) n =
            some s.edgeHeap.length
        rw [alookup_aset, if_pos rfl]
      · show (s.edgeHeap ++ [{ e with ID := n, UpdatedAt := t }]).getD
            s.edgeHeap.length default = { e with ID := n, UpdatedAt := t }
        exact getD_append_len _ _

theorem UpsertEdge_existing_pair {s : InMemoryGraph} {e : Edge} {n : Nat}
    {t : Int} {k a : Nat} (hInv : Inv s) (hk : alookup s.edges k = some a)
    (hS : (getEdge s a).Src = e.Src) (hD : (getEdge s a).Dst = e.Dst) :
    ∃ r, (UpsertEdge s e n t).2 = .ok r ∧ r.ID = k ∧ r.UpdatedAt = t := by
  have hend : ¬ ((alookup s.links e.Src).isNone ∨
      (alookup s.links e.Dst).isNone) := by
    obtain ⟨h1, h2⟩ := hInv.edgesEnds k a hk
    rw [hS] at h1
    rw [hD] at h2
    rcases Option.isSome_iff_exists.mp h1 with ⟨v1, hv1⟩
    rcases Option.isSome_iff_exists.mp h2 with ⟨v2, hv2⟩
    simp [hv1, hv2]
  cases hscan : scanEdgeList s (adj s e.Src) e.Src e.Dst with
  | none =>
      have hmem := hInv.adjComplete k a hk
      rw [hS] at hmem
      exact absurd ⟨hS, hD⟩ (scanEdgeList_none hscan k hmem a hk)
  | some a0 =>
      obtain ⟨eid, hmem, hlook, hS0, hD0⟩ := scanEdgeList_some hscan
      have hkeid : k = eid :=
        hInv.pairUnique k a eid a0 hk hlook (by rw [hS, hS0])
          (by rw [hD, hD0])
      subst hkeid
      obtain rfl : a = a0 := by
        rw [hk] at hlook
        exact Option.some.inj hlook
      rw [UpsertEdge_eq_refresh hend hscan]
      exact ⟨_, rfl, (hInv.edgesWF k a hk).2.1, rfl⟩

/-! ### Claim C3 -/

/-- C3: an `UpsertEdge` whose `Src` or `Dst` is not a stored link ID fails
with an error wrapping the `ErrUnknownEdgeLinks` sentinel and leaves the
state unchanged; with both endpoints present it returns `.ok`. -/
theorem C3_unknown_edge_links :
    (∀ (s : InMemoryGraph) (e : Edge) (n : Nat) (t : Int),
      (alookup s.links e.Src).isNone ∨ (alookup s.links e.Dst).isNone →
      (UpsertEdge s e n t).1 = s ∧
      ∃ err, (UpsertEdge s e n t).2 = .error err ∧
        errorsIs err .ErrUnknownEdgeLinks = true) ∧
    (∀ (s : InMemoryGraph) (e : Edge) (n : Nat) (t : Int), Reachable s →
      (alookup s.links e.Src).isSome → (alookup s.links e.Dst).isSome →
      ∃ r, (UpsertEdge s e n t).2 = .ok r) := by
  constructor
  · intro s e n t h
    rw [UpsertEdge_eq_err h]
    exact ⟨rfl, ⟨"upsert edge", .ErrUnknownEdgeLinks⟩, rfl, rfl⟩
  · intro s e n t hs hsrc hdst
    obtain ⟨r, hr, _⟩ :=
      @UpsertEdge_ok_spec s e n t (Inv_reachable hs) hsrc hdst
    exact ⟨r, hr⟩

theorem C3_unknown_edge_links_witness :
    ((alookup NewInMemoryGraph.links 5).isNone ∨
      (alookup NewInMemoryGraph.links 6).isNone) ∧
    (UpsertEdge NewInMemoryGraph ⟨0, 5, 6, 0⟩ 1 0).1 = NewInMemoryGraph ∧
    (∃ err, (UpsertEdge NewInMemoryGraph ⟨0, 5, 6, 0⟩ 1 0).2 = .error err ∧
      errorsIs err .ErrUnknownEdgeLinks = true) ∧
    (∃ r, (UpsertEdge (UpsertLink (UpsertLink NewInMemoryGraph
        ⟨0, "a", 1⟩ 1).1 ⟨0, "b", 1⟩ 2).1 ⟨0, 1, 2, 0⟩ 7 5).2 = .ok r) := by
  refine ⟨by decide, ?_, ?_, ?_⟩
  · exact (C3_unknown_edge_links.1 NewInMemoryGraph ⟨0, 5, 6, 0⟩ 1 0
      (by decide)).1
  · exact (C3_unknown_edge_links.1 NewInMemoryGraph ⟨0, 5, 6, 0⟩ 1 0
      (by decide)).2
  · exact C3_unknown_edge_links.2 _ ⟨0, 1, 2, 0⟩ 7 5 Reachable_demo2
      (by decide) (by decide)

/-! ### Claim C4 -/

/-- C4: upserting the same `(Src, Dst)` pair twice (with the clock not
running backwards) yields the same edge `ID` both times with a
non-decreasing stored `UpdatedAt`, and every reachable state has at most
one edge per ordered pair. -/
theorem C4_edge_uniqueness :
    (∀ (s : InMemoryGraph) (e : Edge) (n1 n2 : Nat) (t1 t2 : Int),
      Reachable s → validOp s (.upsertEdge e n1 t1) →
      (alookup s.links e.Src).isSome → (alookup s.links e.Dst).isSome →
      t1 ≤ t2 →
      ∃ r1 r2, (UpsertEdge s e n1 t1).2 = .ok r1 ∧
        (UpsertEdge (UpsertEdge s e n1 t1).1 e n2 t2).2 = .ok r2 ∧
        r2.ID = r1.ID ∧ r1.UpdatedAt ≤ r2.UpdatedAt) ∧
    (∀ (s : InMemoryGraph), Reachable s →
      ∀ k1 a1 k2 a2, alookup s.edges k1 = some a1 →
        alookup s.edges k2 = some a2 →
        (getEdge s a1).Src = (getEdge s a2).Src →
        (getEdge s a1).Dst = (getEdge s a2).Dst → k1 = k2) := by
  constructor
  · intro s e n1 n2 t1 t2 hs hv1 hsrc hdst hles
    have hInv := Inv_reachable hs
    obtain ⟨r1, hok1, hS1, hD1, hU1, a1, hla1, hga1⟩ :=
      @UpsertEdge_ok_spec s e n1 t1 hInv hsrc hdst
    have hInv1 : Inv (UpsertEdge s e n1 t1).1 := Inv_upsertEdge hInv hv1
    obtain ⟨r2, hok2, hid2, hU2⟩ :=
      @UpsertEdge_existing_pair _ e n2 t2 _ _ hInv1 hla1
        (by rw [hga1, hS1]) (by rw [hga1, hD1])
    exact ⟨r1, r2, hok1, hok2, hid2, by rw [hU1, hU2]; exact hles⟩
  · intro s hs
    exact (Inv_reachable hs).pairUnique

theorem C4_edge_uniqueness_witness :
    (∃ r1 r2,
      (UpsertEdge (UpsertLink (UpsertLink NewInMemoryGraph ⟨0, "a", 1⟩ 1).1
          ⟨0, "b", 1⟩ 2).1 ⟨0, 1, 2, 0⟩ 7 5).2 = .ok r1 ∧
      (UpsertEdge (UpsertEdge (UpsertLink (UpsertLink NewInMemoryGraph
          ⟨0, "a", 1⟩ 1).1 ⟨0, "b", 1⟩ 2).1 ⟨0, 1, 2, 0⟩ 7 5).1
          ⟨0, 1, 2, 0⟩ 8 9).2 = .ok r2 ∧
      r2.ID = r1.ID ∧ r1.UpdatedAt ≤ r2.UpdatedAt) :=
  C4_edge_uniqueness.1 _ ⟨0, 1, 2, 0⟩ 7 8 5 9 Reachable_demo2
    (by decide) (by decide) (by decide) (by decide)

/-! ### Claim C5 -/

theorem upsertLink_ret_stored {s : InMemoryGraph} {l : Link} {n : Nat}
    (hInv : Inv s) :
    ∃ e', storedByURL (UpsertLink s l n).1 l.URL = some e' ∧
      (UpsertLink s l n).2.1.ID = e'.ID := by
  obtain ⟨hret, _⟩ := UpsertLink_ret s l n
  rw [storedByURL_upsertLink_self hInv, hret]
  cases h : alookup s.linkURLIndex l.URL with
  | some addr =>
      rw [show storedByURL s l.URL = some (getLink s addr) by
        rw [storedByURL, h]; rfl]
      exact ⟨_, rfl, rfl⟩
  | none =>
      rw [show storedByURL s l.URL = none by rw [storedByURL, h]; rfl]
      exact ⟨_, rfl, rfl⟩

/-- C5: distinct URLs are stored under distinct IDs; a repeated upsert of a
URL resolves to the stored ID; upserts of two distinct URLs return distinct
IDs; and each URL has at most one stored link. -/
theorem C5_url_uniqueness :
    (∀ (s : InMemoryGraph), Reachable s →
      ∀ u1 u2 a1 a2, alookup s.linkURLIndex u1 = some a1 →
        alookup s.linkURLIndex u2 = some a2 → u1 ≠ u2 →
        (getLink s a1).ID ≠ (getLink s a2).ID) ∧
    (∀ (s : InMemoryGraph) (l : Link) (n : Nat) (e : Link), Reachable s →
      storedByURL s l.URL = some e → (UpsertLink s l n).2.1.ID = e.ID) ∧
    (∀ (s : InMemoryGraph) (l1 l2 : Link) (n1 n2 : Nat), Reachable s →
      validOp s (.upsertLink l1 n1) →
      validOp (applyOp s (.upsertLink l1 n1)) (.upsertLink l2 n2) →
      l1.URL ≠ l2.URL →
      (UpsertLink (UpsertLink s l1 n1).1 l2 n2).2.1.ID ≠
        (UpsertLink s l1 n1).2.1.ID) ∧
    (∀ (s : InMemoryGraph), Reachable s →
      ∀ k1 a1 k2 a2, alookup s.links k1 = some a1 →
        alookup s.links k2 = some a2 →
        (getLink s a1).URL = (getLink s a2).URL → k1 = k2) := by
  have distinct : ∀ (s : InMemoryGraph), Inv s →
      ∀ u1 u2 a1 a2, alookup s.linkURLIndex u1 = some a1 →
        alookup s.linkURLIndex u2 = some a2 → u1 ≠ u2 →
        (getLink s a1).ID ≠ (getLink s a2).ID := by
    intro s hInv u1 u2 a1 a2 h1 h2 hne heq
    obtain ⟨_, hu1, hl1⟩ := hInv.urlWF u1 a1 h1
    obtain ⟨_, hu2, hl2⟩ := hInv.urlWF u2 a2 h2
    rw [heq, hl2] at hl1
    obtain rfl : a1 = a2 := by simpa using hl1.symm
    rw [hu1] at hu2
    exact hne hu2
  refine ⟨?_, ?_, ?_, ?_⟩
  · intro s hs
    exact distinct s (Inv_reachable hs)
  · intro s l n e hs he
    have hInv := Inv_reachable hs
    obtain ⟨hret, _⟩ := UpsertLink_ret s l n
    rw [hret]
    rcases hu : alookup s.linkURLIndex l.URL with _ | addr
    · rw [storedByURL, hu] at he
      exact Option.noConfusion he
    · rw [storedByURL, hu] at he
      simp only [Option.map_some'] at he
      rw [← Option.some.inj he]
  · intro s l1 l2 n1 n2 hs hv1 hv2 hne
    have hInv := Inv_reachable hs
    have hs1 : Reachable (UpsertLink s l1 n1).1 :=
      @Reachable_applyOp _ (.upsertLink l1 n1) hs hv1
    have hInv1 := Inv_reachable hs1
    obtain ⟨e1, hse1, hid1⟩ := @upsertLink_ret_stored _ l1 n1 hInv
    obtain ⟨hret2, _⟩ := UpsertLink_ret (UpsertLink s l1 n1).1 l2 n2
    rcases hu2 : alookup (UpsertLink s l1 n1).1.linkURLIndex l2.URL
      with _ | addr2
    · rw [hret2, hu2]
      rcases hv2 with hv2 | hv2
      · rw [show applyOp s (.upsertLink l1 n1) = (UpsertLink s l1 n1).1
            from rfl, hu2] at hv2
        simp at hv2
      · intro heq
        rcases hu1 : alookup (UpsertLink s l1 n1).1.linkURLIndex l1.URL
          with _ | addr1
        · rw [storedByURL, hu1] at hse1
          exact Option.noConfusion hse1
        · rw [storedByURL, hu1] at hse1
          simp only [Option.map_some'] at hse1
          obtain rfl : getLink (UpsertLink s l1 n1).1 addr1 = e1 :=
            Option.some.inj hse1
          obtain ⟨_, _, hl1⟩ := hInv1.urlWF l1.URL addr1 hu1
          rw [show ({ l2 with ID := n2 } : Link).ID = n2 from rfl] at heq
          rw [hid1] at heq
          rw [← heq] at hl1
          rw [show applyOp s (.upsertLink l1 n1) = (UpsertLink s l1 n1).1
            from rfl] at hv2
          rw [hv2.2] at hl1
          exact Option.noConfusion hl1
    · rw [hret2, hu2]
      rcases hu1 : alookup (UpsertLink s l1 n1).1.linkURLIndex l1.URL
        with _ | addr1
      · rw [storedByURL, hu1] at hse1
        exact Option.noConfusion hse1
      · rw [storedByURL, hu1] at hse1
        simp only [Option.map_some'] at hse1
        obtain rfl : getLink (UpsertLink s l1 n1).1 addr1 = e1 :=
          Option.some.inj hse1
        intro heq
        rw [hid1] at heq
        exact distinct (UpsertLink s l1 n1).1 hInv1 l2.URL l1.URL addr2 addr1
          hu2 hu1 (fun hh => hne hh.symm) heq
  · intro s hs k1 a1 k2 a2 h1 h2 hurl
    have hInv := Inv_reachable hs
    have g1 := hInv.linksURL k1 a1 h1
    have g2 := hInv.linksURL k2 a2 h2
    rw [hurl, g2] at g1
    obtain rfl : a1 = a2 := by simpa using g1.symm
    have e1 := (hInv.linksWF k1 a1 h1).2.1
    have e2 := (hInv.linksWF k2 a1 h2).2.1
    rw [← e1, ← e2]

theorem C5_url_uniqueness_witness :
    (UpsertLink (UpsertLink NewInMemoryGraph ⟨0, "a", 1⟩ 1).1
      ⟨0, "b", 2⟩ 2).2.1.ID ≠
      (UpsertLink NewInMemoryGraph ⟨0, "a", 1⟩ 1).2.1.ID ∧
    (UpsertLink (UpsertLink NewInMemoryGraph ⟨0, "a", 1⟩ 1).1
      ⟨0, "a", 2⟩ 9).2.1.ID = 1 :=
  ⟨C5_url_uniqueness.2.2.1 NewInMemoryGraph ⟨0, "a", 1⟩ ⟨0, "b", 2⟩ 1 2
      Reachable_new (by decide) (by decide) (by decide),
    C5_url_uniqueness.2.1 (UpsertLink NewInMemoryGraph ⟨0, "a", 1⟩ 1).1
      ⟨0, "a", 2⟩ 9 ⟨1, "a", 1⟩
      Reachable_demo1 (by decide)⟩

/-! ### Claim C6 -/

theorem rsFold_nodelete (s : InMemoryGraph) (t : Int) :
    ∀ (L : List Nat) (E : List (Nat × Nat)) (ks : List Nat),
      (∀ eid ∈ L, ∃ a, alookup E eid = some a ∧
        ¬ (getEdge s a).UpdatedAt < t) →
      L.foldl (rsStep s t) (E, ks) = (E, ks ++ L) := by
  intro L
  induction L with
  | nil => intro E ks _; simp
  | cons eid rest ih =>
      intro E ks h
      obtain ⟨a, ha, hst⟩ := h eid (List.mem_cons_self _ _)
      rw [List.foldl_cons]
      have hstep : rsStep s t (E, ks) eid = (E, ks ++ [eid]) := by
        rw [rsStep]
        rw [show alookup (E, ks).1 eid = alookup E eid from rfl, ha]
        dsimp only
        rw [if_neg hst]
      rw [hstep, ih E (ks ++ [eid])
        (fun e' he' => h e' (List.mem_cons_of_mem _ he')),
        List.append_assoc]
      rfl

/-- C6: `RemoveStaleEdges(src, t)` never fails, touches no link structure
and no edge cell, removes exactly the edges of `src` that are strictly
older than `t` (edges of other sources and fresh-enough edges keep their
exact records, and no edge appears), and a second identical call is the
identity. -/
theorem C6_remove_stale_edges :
    ∀ (s : InMemoryGraph) (src : Nat) (t : Int), Reachable s →
      (RemoveStaleEdges s src t).2 = none ∧
      (RemoveStaleEdges s src t).1.linkHeap = s.linkHeap ∧
      (RemoveStaleEdges s src t).1.links = s.links ∧
      (RemoveStaleEdges s src t).1.linkURLIndex = s.linkURLIndex ∧
      (RemoveStaleEdges s src t).1.edgeHeap = s.edgeHeap ∧
      (∀ k a, alookup s.edges k = some a → (getEdge s a).Src = src →
        (getEdge s a).UpdatedAt < t →
        alookup (RemoveStaleEdges s src t).1.edges k = none) ∧
      (∀ k a, alookup s.edges k = some a →
        ((getEdge s a).Src ≠ src ∨ ¬ (getEdge s a).UpdatedAt < t) →
        alookup (RemoveStaleEdges s src t).1.edges k = some a) ∧
      (∀ k, alookup s.edges k = none →
        alookup (RemoveStaleEdges s src t).1.edges k = none) ∧
      RemoveStaleEdges (RemoveStaleEdges s src t).1 src t =
        ((RemoveStaleEdges s src t).1, none) := by
  intro s src t hs
  have hInv := Inv_reachable hs
  obtain ⟨hc1, hc2, hc3⟩ := RemoveStaleEdges_char hInv src t
  have herr : (RemoveStaleEdges s src t).2 = none := by
    rw [RemoveStaleEdges_eq]
  have hfields : (RemoveStaleEdges s src t).1.linkHeap = s.linkHeap ∧
      (RemoveStaleEdges s src t).1.links = s.links ∧
      (RemoveStaleEdges s src t).1.linkURLIndex = s.linkURLIndex ∧
      (RemoveStaleEdges s src t).1.edgeHeap = s.edgeHeap := by
    rw [RemoveStaleEdges_eq]
    exact ⟨rfl, rfl, rfl, rfl⟩
  refine ⟨herr, hfields.1, hfields.2.1, hfields.2.2.1, hfields.2.2.2,
    ?_, ?_, ?_, ?_⟩
  · intro k a hk hsrc hup
    rw [hc1 k, if_pos ?_]
    constructor
    · have := hInv.adjComplete k a hk
      rw [hsrc] at this
      exact this
    · rw [isStale, hk]
      simp [hup]
  · intro k a hk hcond
    rw [hc1 k, if_neg ?_]
    · exact hk
    · rintro ⟨hmem, hstale⟩
      obtain ⟨a', ha', hsa'⟩ := (hInv.adjWF src).2 k hmem
      rw [hk] at ha'
      obtain rfl : a = a' := Option.some.inj ha'
      rcases hcond with hcond | hcond
      · exact hcond hsa'
      · rw [isStale, hk] at hstale
        simp [hcond] at hstale
  · intro k hk
    rw [hc1 k]
    by_cases hcond : k ∈ adj s src ∧ isStale s t k
    · rw [if_pos hcond]
    · rw [if_neg hcond]
      exact hk
  · -- idempotence
    set s1 := (RemoveStaleEdges s src t).1 with hs1
    have hge : getEdge s1 = getEdge s := by
      funext a
      rw [getEdge, getEdge, hfields.2.2.2]
    have hadj1 : adj s1 src =
        (adj s src).filter (fun eid => ! isStale s t eid) := by
      rw [adj, hc2, alookup_aset, if_pos rfl]
      rfl
    have hkeep : ∀ eid ∈ adj s1 src, ∃ a, alookup s1.edges eid = some a ∧
        ¬ (getEdge s1 a).UpdatedAt < t := by
      intro eid he
      rw [hadj1, List.mem_filter] at he
      obtain ⟨a, ha, hsa⟩ := (hInv.adjWF src).2 eid he.1
      refine ⟨a, ?_, ?_⟩
      · rw [hc1 eid, if_neg ?_]
        · exact ha
        · rintro ⟨_, hstale⟩
          rw [hstale] at he
          simp at he
      · rw [hge]
        have hfalse : isStale s t eid = false := by
          rcases hii : isStale s t eid with _ | _
          · rfl
          · rw [hii] at he
            simp at he
        rw [isStale, ha] at hfalse
        simp at hfalse
        omega
    have hfold := rsFold_nodelete s1 t (adj s1 src) s1.edges [] hkeep
    rw [RemoveStaleEdges_eq s1 src t]
    show ({ s1 with
        edges := ((adj s1 src).foldl (rsStep s1 t) (s1.edges, [])).1
        linkEdgeMap := aset s1.linkEdgeMap src
          ((adj s1 src).foldl (rsStep s1 t) (s1.edges, [])).2 }, none) =
      (s1, none)
    rw [hfold]
    have hlem1 : s1.linkEdgeMap = aset s.linkEdgeMap src
        ((adj s src).filter (fun eid => ! isStale s t eid)) := hc2
    have : aset s1.linkEdgeMap src ((s1.edges, [] ++ adj s1 src).2) =
        s1.linkEdgeMap := by
      rw [show (s1.edges, [] ++ adj s1 src).2 = [] ++ adj s1 src from rfl,
        List.nil_append, hadj1, hlem1, aset_aset_self]
    rw [this]

theorem C6_remove_stale_edges_witness :
    (RemoveStaleEdges (UpsertEdge (UpsertLink (UpsertLink NewInMemoryGraph
      ⟨0, "a", 1⟩ 1).1 ⟨0, "b", 1⟩ 2).1 ⟨0, 1, 2, 0⟩ 7 5).1 1 10).2 = none ∧
    RemoveStaleEdges (RemoveStaleEdges (UpsertEdge (UpsertLink (UpsertLink
        NewInMemoryGraph ⟨0, "a", 1⟩ 1).1 ⟨0, "b", 1⟩ 2).1
        ⟨0, 1, 2, 0⟩ 7 5).1 1 10).1 1 10 =
      ((RemoveStaleEdges (UpsertEdge (UpsertLink (UpsertLink
        NewInMemoryGraph ⟨0, "a", 1⟩ 1).1 ⟨0, "b", 1⟩ 2).1
        ⟨0, 1, 2, 0⟩ 7 5).1 1 10).1, none) :=
  ⟨(C6_remove_stale_edges _ 1 10 Reachable_demo3).1,
    (C6_remove_stale_edges _ 1 10 Reachable_demo3).2.2.2.2.2.2.2.2⟩

/-! ### Membership characterization of the range snapshots -/

theorem alookup_mem {K V : Type} [DecidableEq K] {m : List (K × V)} {k : K}
    {v : V} (h : alookup m k = some v) : (k, v) ∈ m := by
  induction m with
  | nil => exact Option.noConfusion h
  | cons p ps ih =>
      by_cases hp : p.1 = k
      · rw [alookup_cons, if_pos hp] at h
        obtain rfl : p.2 = v := Option.some.inj h
        rw [← hp]
        exact List.mem_cons_self p ps
      · rw [alookup_cons, if_neg hp] at h
        exact List.mem_cons_of_mem p (ih h)

theorem alookup_of_mem_nodup {K V : Type} [DecidableEq K]
    {m : List (K × V)} {p : K × V} (hm : (m.map Prod.fst).Nodup)
    (h : p ∈ m) : alookup m p.1 = some p.2 := by
  induction m with
  | nil => simp at h
  | cons q qs ih =>
      rw [List.map_cons, List.nodup_cons] at hm
      rcases List.mem_cons.mp h with rfl | h'
      · rw [alookup_cons, if_pos rfl]
      · rw [alookup_cons]
        by_cases hq : q.1 = p.1
        · exfalso
          refine hm.1 ?_
          rw [hq]
          exact List.mem_map_of_mem Prod.fst h'
        · rw [if_neg hq]
          exact ih hm.2 h'

theorem Links_mem {s : InMemoryGraph} (hInv : Inv s) {fromID toID : Nat}
    (hf : fromID < 2 ^ 128) (ht : toID < 2 ^ 128) (t : Int) :
    ∀ x, x ∈ (Links s fromID toID t).1 ↔
      ∃ k, alookup s.links k = some x ∧ fromID ≤ k ∧ k < toID ∧
        (getLink s x).RetrievedAt < t := by
  intro x
  have hdef : (Links s fromID toID t).1 = (s.links.filter fun p =>
      bytesLe (uuidBytes fromID) (uuidBytes p.1) &&
        bytesLt (uuidBytes p.1) (uuidBytes toID) &&
          decide ((getLink s p.2).RetrievedAt < t)).map Prod.snd := rfl
  rw [hdef, List.mem_map]
  constructor
  · rintro ⟨p, hp, rfl⟩
    rw [List.mem_filter] at hp
    have hlk := alookup_of_mem_nodup hInv.linksKeysNodup hp.1
    have hbound := (hInv.linksWF p.1 p.2 hlk).2.2
    simp only [Bool.and_eq_true, decide_eq_true_eq] at hp
    exact ⟨p.1, hlk, (uuidBytes_le_iff hf hbound).mp hp.2.1.1,
      (uuidBytes_lt_iff hbound ht).mp hp.2.1.2, hp.2.2⟩
  · rintro ⟨k, hk, hge, hlt, hts⟩
    refine ⟨(k, x), ?_, rfl⟩
    rw [List.mem_filter]
    have hbound := (hInv.linksWF k x hk).2.2
    refine ⟨alookup_mem hk, ?_⟩
    simp only [Bool.and_eq_true, decide_eq_true_eq]
    exact ⟨⟨(uuidBytes_le_iff hf hbound).mpr hge,
      (uuidBytes_lt_iff hbound ht).mpr hlt⟩, hts⟩

theorem Edges_mem {s : InMemoryGraph} (hInv : Inv s) {fromID toID : Nat}
    (hf : fromID < 2 ^ 128) (ht : toID < 2 ^ 128) (t : Int) :
    ∀ x, x ∈ (Edges s fromID toID t).1 ↔
      ∃ k, alookup s.edges k = some x ∧ fromID ≤ (getEdge s x).Src ∧
        (getEdge s x).Src < toID ∧ (getEdge s x).UpdatedAt < t := by
  intro x
  have hdef : (Edges s fromID toID t).1 = (s.links.filter fun p =>
      bytesLe (uuidBytes fromID) (uuidBytes p.1) &&
        bytesLt (uuidBytes p.1) (uuidBytes toID)).flatMap
        (fun p => (alookup s.linkEdgeMap p.1 |>.getD []).filterMap
          fun edgeID =>
            match alookup s.edges edgeID with
            | some eaddr =>
                if (getEdge s eaddr).UpdatedAt < t then some eaddr else none
            | none => none) := rfl
  rw [hdef, List.mem_flatMap]
  constructor
  · rintro ⟨p, hp, hx⟩
    rw [List.mem_filter] at hp
    have hlk := alookup_of_mem_nodup hInv.linksKeysNodup hp.1
    have hbound := (hInv.linksWF p.1 p.2 hlk).2.2
    simp only [Bool.and_eq_true] at hp
    rw [List.mem_filterMap] at hx
    obtain ⟨eid, hmem, hG⟩ := hx
    cases he : alookup s.edges eid with
    | none => rw [he] at hG; exact Option.noConfusion hG
    | some ea =>
        rw [he] at hG
        dsimp only at hG
        by_cases hts : (getEdge s ea).UpdatedAt < t
        · rw [if_pos hts] at hG
          have hx : ea = x := Option.some.inj hG
          subst hx
          obtain ⟨a', ha', hsa'⟩ := (hInv.adjWF p.1).2 eid hmem
          rw [he] at ha'
          have ha2 : ea = a' := Option.some.inj ha'
          subst ha2
          rw [hsa']
          exact ⟨eid, he, (uuidBytes_le_iff hf hbound).mp hp.2.1,
            (uuidBytes_lt_iff hbound ht).mp hp.2.2, hts⟩
        · rw [if_neg hts] at hG
          exact Option.noConfusion hG
  · rintro ⟨k, hk, hge, hlt, hts⟩
    have hmem := hInv.adjComplete k x hk
    obtain ⟨hsrcSome, _⟩ := hInv.edgesEnds k x hk
    rcases hsl : alookup s.links (getEdge s x).Src with _ | addr0
    · rw [hsl] at hsrcSome
      exact Bool.noConfusion hsrcSome
    · have hbound := (hInv.linksWF _ _ hsl).2.2
      refine ⟨((getEdge s x).Src, addr0), ?_, ?_⟩
      · rw [List.mem_filter]
        refine ⟨alookup_mem hsl, ?_⟩
        simp only [Bool.and_eq_true]
        exact ⟨(uuidBytes_le_iff hf hbound).mpr hge,
          (uuidBytes_lt_iff hbound ht).mpr hlt⟩
      · rw [List.mem_filterMap]
        refine ⟨k, hmem, ?_⟩
        rw [hk]
        dsimp only
        rw [if_pos hts]

/-! ### Claim C9 -/

/-- C9: `Edges(fromID, toID, updatedBefore)` returns no error, and its
snapshot — built by walking the adjacency index of the in-range links —
holds exactly the stored edges whose `Src` lies in `[fromID, toID)`
(numerically, equivalently by canonical-string comparison) and whose
`UpdatedAt` is strictly below the threshold. -/
theorem C9_edges_range :
    ∀ (s : InMemoryGraph) (fromID toID : Nat) (t : Int), Reachable s →
      fromID < 2 ^ 128 → toID < 2 ^ 128 →
      (Edges s fromID toID t).2 = none ∧
      (∀ x, x ∈ (Edges s fromID toID t).1 ↔
        ∃ k, alookup s.edges k = some x ∧ fromID ≤ (getEdge s x).Src ∧
          (getEdge s x).Src < toID ∧ (getEdge s x).UpdatedAt < t) := by
  intro s fromID toID t hs hf ht
  exact ⟨rfl, Edges_mem (Inv_reachable hs) hf ht t⟩

theorem C9_edges_range_witness :
    (Edges (UpsertEdge (UpsertLink (UpsertLink NewInMemoryGraph
        ⟨0, "a", 1⟩ 1).1 ⟨0, "b", 1⟩ 2).1 ⟨0, 1, 2, 0⟩ 7 5).1
      0 340282366920938463463374607431768211455 10).2 = none ∧
    (∀ x, x ∈ (Edges (UpsertEdge (UpsertLink (UpsertLink NewInMemoryGraph
        ⟨0, "a", 1⟩ 1).1 ⟨0, "b", 1⟩ 2).1 ⟨0, 1, 2, 0⟩ 7 5).1
        0 340282366920938463463374607431768211455 10).1 ↔
      ∃ k, alookup (UpsertEdge (UpsertLink (UpsertLink NewInMemoryGraph
          ⟨0, "a", 1⟩ 1).1 ⟨0, "b", 1⟩ 2).1 ⟨0, 1, 2, 0⟩ 7 5).1.edges k =
          some x ∧
        0 ≤ (getEdge (UpsertEdge (UpsertLink (UpsertLink NewInMemoryGraph
          ⟨0, "a", 1⟩ 1).1 ⟨0, "b", 1⟩ 2).1 ⟨0, 1, 2, 0⟩ 7 5).1 x).Src ∧
        (getEdge (UpsertEdge (UpsertLink (UpsertLink NewInMemoryGraph
          ⟨0, "a", 1⟩ 1).1 ⟨0, "b", 1⟩ 2).1 ⟨0, 1, 2, 0⟩ 7 5).1 x).Src <
          340282366920938463463374607431768211455 ∧
        (getEdge (UpsertEdge (UpsertLink (UpsertLink NewInMemoryGraph
          ⟨0, "a", 1⟩ 1).1 ⟨0, "b", 1⟩ 2).1 ⟨0, 1, 2, 0⟩ 7 5).1
          x).UpdatedAt < 10) :=
  C9_edges_range _ 0 340282366920938463463374607431768211455 10
    Reachable_demo3 (by decide) (by decide)

/-! ### Claim C7 -/

theorem chainLe_head_last {b : Nat} :
    ∀ (l : List Nat) (a : Nat), List.Chain' (· ≤ ·) (a :: (l ++ [b])) →
      a ≤ b := by
  intro l
  induction l with
  | nil =>
      intro a h
      rw [List.nil_append, List.chain'_cons] at h
      exact h.1
  | cons c l' ih =>
      intro a h
      rw [List.cons_append, List.chain'_cons] at h
      exact le_trans h.1 (ih c h.2)

theorem cover_unique (lo hi : Nat) :
    ∀ (mid : List Nat), List.Chain' (· ≤ ·) (lo :: (mid ++ [hi])) →
      ∀ k, ((lo ≤ k ∧ k < hi) ↔
        ∃ pr ∈ (lo :: (mid ++ [hi])).zip (mid ++ [hi]),
          pr.1 ≤ k ∧ k < pr.2) := by
  intro mid
  induction mid generalizing lo with
  | nil =>
      intro hch k
      constructor
      · intro h
        exact ⟨(lo, hi), by simp [List.zip], h⟩
      · rintro ⟨pr, hpr, h⟩
        simp [List.zip] at hpr
        rw [hpr] at h
        exact h
  | cons m mid' ih =>
      intro hch k
      rw [List.cons_append, List.chain'_cons] at hch
      have hmh : m ≤ hi := chainLe_head_last mid' m hch.2
      have htail := ih m hch.2 k
      constructor
      · rintro ⟨hlo, hhi⟩
        by_cases hk : k < m
        · exact ⟨(lo, m), by simp, hlo, hk⟩
        · obtain ⟨pr, hpr, h⟩ := htail.mp ⟨le_of_not_lt hk, hhi⟩
          exact ⟨pr, by simp [hpr], h⟩
      · rintro ⟨pr, hpr, h⟩
        rcases List.mem_cons.mp (by simpa using hpr) with rfl | hpr'
        · exact ⟨h.1, lt_of_lt_of_le h.2 hmh⟩
        · obtain ⟨hm, hhi⟩ := htail.mpr ⟨pr, hpr', h⟩
          exact ⟨le_trans hch.1 hm, hhi⟩

theorem zip_first_ge :
    ∀ (l : List Nat) (a : Nat), List.Chain' (· ≤ ·) (a :: l) →
      ∀ pr ∈ (a :: l).zip l, a ≤ pr.1 := by
  intro l
  induction l with
  | nil => intro a _ pr hpr; simp [List.zip] at hpr
  | cons c l' ih =>
      intro a h pr hpr
      rw [List.chain'_cons] at h
      rcases List.mem_cons.mp (by simpa using hpr) with rfl | hpr'
      · exact le_refl a
      · exact le_trans h.1 (ih c h.2 pr hpr')

theorem pairs_sorted :
    ∀ (es : List Nat), List.Chain' (· ≤ ·) es →
      (es.zip es.tail).Pairwise (fun pr1 pr2 => pr1.2 ≤ pr2.1) := by
  intro es
  induction es with
  | nil => intro _; simp
  | cons a l ih =>
      intro h
      cases l with
      | nil => simp
      | cons b rest =>
          rw [List.chain'_cons] at h
          show ((a, b) :: (b :: rest).zip rest).Pairwise _
          rw [List.pairwise_cons]
          exact ⟨fun q hq => zip_first_ge rest b h.2 q hq, ih h.2⟩

/-- C7: the canonical textual form compares exactly as the numbers do, and
contiguous, non-overlapping `[a0,a1), …, [a(n-1),an)` ranges tile: the
union of `Links` snapshots over the ranges is the snapshot of the single
full-range call, and no link lands in two ranges. -/
theorem C7_partition_tiling :
    (∀ a b : Nat, a < 2 ^ 128 → b < 2 ^ 128 →
      ((bytesLt (uuidBytes a) (uuidBytes b) = true) ↔ a < b) ∧
      ((bytesLe (uuidBytes a) (uuidBytes b) = true) ↔ a ≤ b)) ∧
    (∀ (s : InMemoryGraph) (lo hi : Nat) (mid : List Nat) (t : Int),
      Reachable s → List.Chain' (· ≤ ·) (lo :: (mid ++ [hi])) →
      lo < 2 ^ 128 → hi < 2 ^ 128 → (∀ m ∈ mid, m < 2 ^ 128) →
      (∀ x, x ∈ ((lo :: (mid ++ [hi])).zip (mid ++ [hi])).flatMap
          (fun pr => (Links s pr.1 pr.2 t).1) ↔
        x ∈ (Links s lo hi t).1) ∧
      ((lo :: (mid ++ [hi])).zip (mid ++ [hi])).Pairwise
        (fun pr1 pr2 => ∀ x, x ∈ (Links s pr1.1 pr1.2 t).1 →
          x ∉ (Links s pr2.1 pr2.2 t).1)) := by
  constructor
  · intro a b ha hb
    exact ⟨uuidBytes_lt_iff ha hb, uuidBytes_le_iff ha hb⟩
  · intro s lo hi mid t hs hch hlo hhi hmid
    have hInv := Inv_reachable hs
    have hbound : ∀ y, y ∈ (lo :: (mid ++ [hi])) → y < 2 ^ 128 := by
      intro y hy
      rcases List.mem_cons.mp hy with rfl | hy'
      · exact hlo
      · rcases List.mem_append.mp hy' with hy2 | hy2
        · exact hmid y hy2
        · rw [List.mem_singleton.mp hy2]
          exact hhi
    have hboundPr : ∀ pr ∈ (lo :: (mid ++ [hi])).zip (mid ++ [hi]),
        pr.1 < 2 ^ 128 ∧ pr.2 < 2 ^ 128 := by
      intro pr hpr
      obtain ⟨h1, h2⟩ := List.of_mem_zip hpr
      exact ⟨hbound pr.1 h1, hbound pr.2 (List.mem_cons_of_mem lo h2)⟩
    constructor
    · intro x
      rw [List.mem_flatMap, Links_mem hInv hlo hhi t]
      constructor
      · rintro ⟨pr, hpr, hx⟩
        obtain ⟨hb1, hb2⟩ := hboundPr pr hpr
        obtain ⟨k, hk, hge, hlt, hts⟩ := (Links_mem hInv hb1 hb2 t x).mp hx
        obtain ⟨h1, h2⟩ :=
          (cover_unique lo hi mid hch k).mpr ⟨pr, hpr, hge, hlt⟩
        exact ⟨k, hk, h1, h2, hts⟩
      · rintro ⟨k, hk, hge, hlt, hts⟩
        obtain ⟨pr, hpr, h1, h2⟩ :=
          (cover_unique lo hi mid hch k).mp ⟨hge, hlt⟩
        obtain ⟨hb1, hb2⟩ := hboundPr pr hpr
        exact ⟨pr, hpr,
          (Links_mem hInv hb1 hb2 t x).mpr ⟨k, hk, h1, h2, hts⟩⟩
    · refine List.Pairwise.imp_of_mem ?_
        (pairs_sorted (lo :: (mid ++ [hi])) hch)
      intro pr1 pr2 hm1 hm2 hle x hx1 hx2
      obtain ⟨c1, d1⟩ := hboundPr pr1 hm1
      obtain ⟨c2, d2⟩ := hboundPr pr2 hm2
      obtain ⟨k1, hk1, hge1, hlt1, _⟩ := (Links_mem hInv c1 d1 t x).mp hx1
      obtain ⟨k2, hk2, hge2, hlt2, _⟩ := (Links_mem hInv c2 d2 t x).mp hx2
      have hid1 := (hInv.linksWF k1 x hk1).2.1
      have hid2 := (hInv.linksWF k2 x hk2).2.1
      have hk12 : k1 = k2 := by rw [← hid1, hid2]
      omega

theorem C7_partition_tiling_witness :
    ((bytesLt (uuidBytes 3) (uuidBytes 7) = true) ↔ 3 < 7) ∧
    (∀ x, x ∈ (((0 : Nat) :: ([5] ++
          [340282366920938463463374607431768211455])).zip
          ([5] ++ [340282366920938463463374607431768211455])).flatMap
        (fun pr => (Links (UpsertLink NewInMemoryGraph ⟨0, "a", 1⟩ 1).1
          pr.1 pr.2 10).1) ↔
      x ∈ (Links (UpsertLink NewInMemoryGraph ⟨0, "a", 1⟩ 1).1 0
        340282366920938463463374607431768211455 10).1) :=
  ⟨(C7_partition_tiling.1 3 7 (by decide) (by decide)).1,
    (C7_partition_tiling.2 (UpsertLink NewInMemoryGraph ⟨0, "a", 1⟩ 1).1 0
      340282366920938463463374607431768211455 [5] 10
      Reachable_demo1
      (by norm_num [List.chain'_cons]) (by decide) (by decide)
      (by decide)).1⟩

/-! ### Claim C2 -/

/-- C2 as stated is false: the snapshot list built by `Links` holds the
engine's own cells (`list = append(list, link)` appends the map's pointer,
not a copy), so a later `UpsertLink` of the same URL mutates the record a
live iterator yields: after snapshotting `{"a", 100}` the upsert of
`{"a", 200}` makes the same iterator yield `RetrievedAt = 200`. -/
theorem C2_counterexample :
    iterLink (UpsertLink (UpsertLink NewInMemoryGraph ⟨0, "a", 100⟩ 1).1
        ⟨0, "a", 200⟩ 2).1
      (Links (UpsertLink NewInMemoryGraph ⟨0, "a", 100⟩ 1).1 0
        340282366920938463463374607431768211455 1000).1 =
      [{ ID := 1, URL := "a", RetrievedAt := 200 }] ∧
    iterLink (UpsertLink NewInMemoryGraph ⟨0, "a", 100⟩ 1).1
      (Links (UpsertLink NewInMemoryGraph ⟨0, "a", 100⟩ 1).1 0
        340282366920938463463374607431768211455 1000).1 =
      [{ ID := 1, URL := "a", RetrievedAt := 100 }] := by
  constructor <;> rfl

/-- C2 amended: the membership of a snapshot is fixed at creation time and
the identity fields of every cell a snapshot can point at (`ID`/`URL` of a
link, `ID`/`Src`/`Dst` of an edge) never change afterwards, and `FindLink`
returns the stored record's value; but the records an iterator yields are
shared with the engine, so an upsert that refreshes a matched record is
visible through a previously created iterator (`RetrievedAt`/`UpdatedAt`
are live). -/
theorem C2_snapshot_identity :
    ∀ (s : InMemoryGraph) (op : Op), Reachable s → validOp s op →
      (∀ a, a < s.linkHeap.length →
        s.linkHeap.length ≤ (applyOp s op).linkHeap.length ∧
        (getLink (applyOp s op) a).ID = (getLink s a).ID ∧
        (getLink (applyOp s op) a).URL = (getLink s a).URL) ∧
      (∀ a, a < s.edgeHeap.length →
        (getEdge (applyOp s op) a).ID = (getEdge s a).ID ∧
        (getEdge (applyOp s op) a).Src = (getEdge s a).Src ∧
        (getEdge (applyOp s op) a).Dst = (getEdge s a).Dst) ∧
      (∀ id l, FindLink s id = .ok l →
        ∃ a, alookup s.links id = some a ∧ l = getLink s a) := by
  intro s op hs hv
  have hInv := Inv_reachable hs
  refine ⟨?_, ?_, ?_⟩
  · intro a ha
    cases op with
    | upsertLink l n =>
        show s.linkHeap.length ≤ (UpsertLink s l n).1.linkHeap.length ∧
          (getLink (UpsertLink s l n).1 a).ID = (getLink s a).ID ∧
          (getLink (UpsertLink s l n).1 a).URL = (getLink s a).URL
        cases h : alookup s.linkURLIndex l.URL with
        | some addr =>
            obtain ⟨h1, h2, h3⟩ := hInv.urlWF _ _ h
            obtain ⟨f1, _, _, _, _, _⟩ := @UpsertLink_found_fields _ _ n _ h
            have hlen : (UpsertLink s l n).1.linkHeap.length =
                s.linkHeap.length := by rw [f1, List.length_set]
            have hget : ∀ b, getLink (UpsertLink s l n).1 b =
                if b = addr then ulCell s l addr else getLink s b := by
              intro b
              rw [getLink_heap, f1]
              by_cases hb : b = addr
              · subst hb
                rw [if_pos rfl]
                exact getD_set_self _ h1
              · rw [if_neg hb]
                exact getD_set_ne _ (fun hh => hb hh.symm)
            refine ⟨le_of_eq hlen.symm, ?_, ?_⟩
            · rw [hget a]
              by_cases hb : a = addr
              · subst hb
                rw [if_pos rfl, ulCell]
                by_cases hc : (getLink s a).RetrievedAt > l.RetrievedAt
                · rw [if_pos hc]
                · rw [if_neg hc]
              · rw [if_neg hb]
            · rw [hget a]
              by_cases hb : a = addr
              · subst hb
                rw [if_pos rfl, ulCell]
                by_cases hc : (getLink s a).RetrievedAt > l.RetrievedAt
                · rw [if_pos hc]
                  exact h2.symm
                · rw [if_neg hc]
                  exact h2.symm
              · rw [if_neg hb]
        | none =>
            obtain ⟨f1, _, _, _, _, _⟩ := @UpsertLink_new_fields _ _ n h
            have hl : getLink (UpsertLink s l n).1 a = getLink s a := by
              rw [getLink_heap, getLink_heap, f1]
              exact getD_append_lt _ ha
            refine ⟨?_, by rw [hl], by rw [hl]⟩
            rw [f1, List.length_append]
            omega
    | upsertEdge e n t =>
        obtain ⟨g1, _, _⟩ := UpsertEdge_preserves_links s e n t
        show s.linkHeap.length ≤ (UpsertEdge s e n t).1.linkHeap.length ∧
          (getLink (UpsertEdge s e n t).1 a).ID = (getLink s a).ID ∧
          (getLink (UpsertEdge s e n t).1 a).URL = (getLink s a).URL
        have hl : getLink (UpsertEdge s e n t).1 a = getLink s a := by
          rw [getLink_heap, getLink_heap, g1]
        exact ⟨le_of_eq (by rw [g1]), by rw [hl], by rw [hl]⟩
    | removeStaleEdges f t =>
        show s.linkHeap.length ≤ (RemoveStaleEdges s f t).1.linkHeap.length ∧
          (getLink (RemoveStaleEdges s f t).1 a).ID = (getLink s a).ID ∧
          (getLink (RemoveStaleEdges s f t).1 a).URL = (getLink s a).URL
        rw [RemoveStaleEdges_eq]
        exact ⟨le_refl _, rfl, rfl⟩
  · intro a ha
    cases op with
    | upsertLink l n =>
        show (getEdge (UpsertLink s l n).1 a).ID = (getEdge s a).ID ∧
          (getEdge (UpsertLink s l n).1 a).Src = (getEdge s a).Src ∧
          (getEdge (UpsertLink s l n).1 a).Dst = (getEdge s a).Dst
        cases h : alookup s.linkURLIndex l.URL with
        | some addr =>
            rw [UpsertLink_eq_found h]
            exact ⟨rfl, rfl, rfl⟩
        | none =>
            rw [UpsertLink_eq_new h]
            exact ⟨rfl, rfl, rfl⟩
    | upsertEdge e n t =>
        show (getEdge (UpsertEdge s e n t).1 a).ID = (getEdge s a).ID ∧
          (getEdge (UpsertEdge s e n t).1 a).Src = (getEdge s a).Src ∧
          (getEdge (UpsertEdge s e n t).1 a).Dst = (getEdge s a).Dst
        by_cases hend : (alookup s.links e.Src).isNone ∨
            (alookup s.links e.Dst).isNone
        · rw [UpsertEdge_eq_err hend]
          exact ⟨rfl, rfl, rfl⟩
        · cases hscan : scanEdgeList s (adj s e.Src) e.Src e.Dst with
          | some a0 =>
              obtain ⟨eid, hmem, hlook, _, _⟩ := scanEdgeList_some hscan
              have hlt := (hInv.edgesWF eid a0 hlook).1
              have hgetr : getEdge (UpsertEdge s e n t).1 a =
                  (s.edgeHeap.set a0
                    { getEdge s a0 with UpdatedAt := t }).getD a default := by
                rw [UpsertEdge_eq_refresh hend hscan]
                rfl
              by_cases hb : a0 = a
              · subst hb
                rw [hgetr, getD_set_self _ hlt]
                exact ⟨rfl, rfl, rfl⟩
              · rw [hgetr, getD_set_ne _ hb]
                exact ⟨rfl, rfl, rfl⟩
          | none =>
              have hgetn : getEdge (UpsertEdge s e n t).1 a =
                  (s.edgeHeap ++
                    [{ e with ID := n, UpdatedAt := t }]).getD a default := by
                rw [UpsertEdge_eq_new hend hscan]
                rfl
              rw [hgetn, getD_append_lt _ ha]
              exact ⟨rfl, rfl, rfl⟩
    | removeStaleEdges f t =>
        show (getEdge (RemoveStaleEdges s f t).1 a).ID = (getEdge s a).ID ∧
          (getEdge (RemoveStaleEdges s f t).1 a).Src = (getEdge s a).Src ∧
          (getEdge (RemoveStaleEdges s f t).1 a).Dst = (getEdge s a).Dst
        rw [RemoveStaleEdges_eq]
        exact ⟨rfl, rfl, rfl⟩
  · intro id l h
    rw [FindLink] at h
    cases hl : alookup s.links id with
    | none =>
        rw [hl] at h
        exact Except.noConfusion h
    | some a =>
        rw [hl] at h
        dsimp only at h
        exact ⟨a, rfl, (Except.ok.inj h).symm⟩

theorem C2_snapshot_identity_witness :
    (getLink (applyOp (UpsertLink NewInMemoryGraph ⟨0, "a", 100⟩ 1).1
      (.upsertLink ⟨0, "a", 200⟩ 2)) 0).ID =
    (getLink (UpsertLink NewInMemoryGraph ⟨0, "a", 100⟩ 1).1 0).ID :=
  ((C2_snapshot_identity (UpsertLink NewInMemoryGraph ⟨0, "a", 100⟩ 1).1
    (.upsertLink ⟨0, "a", 200⟩ 2)
    Reachable_demoA
    (by decide)).1 0 (by decide)).2.1

/-! ### Claim C10 -/

/-- C10: in every reachable state the indices are mutually consistent —
each adjacency-list entry is an edge-map key whose record has the list's
link as `Src`; no edge ID sits in two adjacency lists or twice in one;
every edge's endpoints are link-map keys and every edge ID is filed in its
source's list; `linkURLIndex` and `links` point at the same record in both
directions; and the records carry the keys they are filed under — so the
unguarded dereferences in `UpsertEdge`, `Edges` and `RemoveStaleEdges`
cannot miss. -/
theorem C10_index_consistency :
    ∀ (s : InMemoryGraph), Reachable s →
      (∀ src lst, alookup s.linkEdgeMap src = some lst →
        (∀ eid ∈ lst, ∃ a, alookup s.edges eid = some a ∧
          (getEdge s a).Src = src) ∧ lst.Nodup) ∧
      (∀ src1 lst1 src2 lst2 eid, alookup s.linkEdgeMap src1 = some lst1 →
        alookup s.linkEdgeMap src2 = some lst2 → eid ∈ lst1 → eid ∈ lst2 →
        src1 = src2) ∧
      (∀ k a, alookup s.edges k = some a →
        (alookup s.links (getEdge s a).Src).isSome ∧
        (alookup s.links (getEdge s a).Dst).isSome ∧
        (getEdge s a).ID = k ∧
        ∃ lst, alookup s.linkEdgeMap (getEdge s a).Src = some lst ∧
          k ∈ lst) ∧
      (∀ k a, alookup s.links k = some a → (getLink s a).ID = k ∧
        alookup s.linkURLIndex (getLink s a).URL = some a) ∧
      (∀ u a, alookup s.linkURLIndex u = some a → (getLink s a).URL = u ∧
        alookup s.links (getLink s a).ID = some a) := by
  intro s hs
  have hInv := Inv_reachable hs
  have hadj : ∀ src lst, alookup s.linkEdgeMap src = some lst →
      adj s src = lst := by
    intro src lst h
    rw [adj, h]
    rfl
  refine ⟨?_, ?_, ?_, ?_, ?_⟩
  · intro src lst h
    rw [← hadj src lst h]
    exact ⟨(hInv.adjWF src).2, (hInv.adjWF src).1⟩
  · intro src1 lst1 src2 lst2 eid h1 h2 he1 he2
    rw [← hadj src1 lst1 h1] at he1
    rw [← hadj src2 lst2 h2] at he2
    obtain ⟨a1, ha1, hs1⟩ := (hInv.adjWF src1).2 eid he1
    obtain ⟨a2, ha2, hs2⟩ := (hInv.adjWF src2).2 eid he2
    rw [ha1] at ha2
    obtain rfl : a1 = a2 := Option.some.inj ha2
    rw [← hs1, ← hs2]
  · intro k a hk
    obtain ⟨hsrc, hdst⟩ := hInv.edgesEnds k a hk
    have hmem := hInv.adjComplete k a hk
    refine ⟨hsrc, hdst, (hInv.edgesWF k a hk).2.1, ?_⟩
    rcases hl : alookup s.linkEdgeMap (getEdge s a).Src with _ | lst
    · rw [adj, hl] at hmem
      simp at hmem
    · rw [adj, hl] at hmem
      exact ⟨lst, rfl, hmem⟩
  · intro k a hk
    exact ⟨(hInv.linksWF k a hk).2.1, hInv.linksURL k a hk⟩
  · intro u a hu
    obtain ⟨_, h2, h3⟩ := hInv.urlWF u a hu
    exact ⟨h2, h3⟩

theorem C10_index_consistency_witness :
    (getEdge (UpsertEdge (UpsertLink (UpsertLink NewInMemoryGraph
      ⟨0, "a", 1⟩ 1).1 ⟨0, "b", 1⟩ 2).1 ⟨0, 1, 2, 0⟩ 7 5).1 0).ID = 7 :=
  ((C10_index_consistency _ Reachable_demo3).2.2.1 7 0
    (by decide)).2.2.1

end WebCrawler
